import Mathlib

/-!
Verification of the git-cinnabar object-storage core
(`src/helper/cinnabar-fast-import.c`) against its specification.

The C sources are shallowly embedded: byte buffers become `List Nat`,
Mercurial/Git object ids become byte lists, the process-wide singletons
become explicit state records, and the abstract object-database layer
(SHA-1 hashing, `store_object`, `read_object_file`) becomes function
parameters.  Functions taken from files that are not part of the
provided sources (git's own `fast-import.c` tree machinery, `oid-array.c`,
`hg-data.c`) are modelled from the specification and say so in their doc
comments.
-/

/-! ## Byte-level utilities -/

/-- Bytes of a Lean string literal, used for the fixed ASCII strings the C
code compares against (`strcmp`, `starts_with`). -/
def strBytes (s : String) : List Nat :=
  s.toList.map Char.toNat

/-- Boolean list-prefix test, mirroring C's `starts_with` on byte buffers. -/
def listStartsWith : List Nat → List Nat → Bool
  | [], _ => true
  | _ :: _, [] => false
  | p :: ps, b :: bs => p == b && listStartsWith ps bs

/-- Lexicographic byte comparison, mirroring `memcmp`/`oidcmp` on oids and
git tree entry names. -/
def bytesCmp : List Nat → List Nat → Ordering
  | [], [] => .eq
  | [], _ :: _ => .lt
  | _ :: _, [] => .gt
  | a :: as, b :: bs =>
    if a < b then .lt else if b < a then .gt else bytesCmp as bs

/-- Strict `<` induced by `bytesCmp`, as a proposition. -/
def bytesLtP (a b : List Nat) : Prop := bytesCmp a b = .lt

instance : DecidableEq Ordering := fun a b => by
  cases a <;> cases b <;> first
    | exact isTrue rfl
    | exact isFalse (fun h => Ordering.noConfusion h)

instance (a b : List Nat) : Decidable (bytesLtP a b) := by
  unfold bytesLtP; infer_instance

/-- Value of a hex digit, as in git's `hexval` (accepts `0-9`, `a-f`, `A-F`). -/
def hexVal (c : Nat) : Option Nat :=
  if 48 ≤ c ∧ c ≤ 57 then some (c - 48)
  else if 97 ≤ c ∧ c ≤ 102 then some (c - 87)
  else if 65 ≤ c ∧ c ≤ 70 then some (c - 55)
  else none

/-- Decode a hex byte string two characters at a time, as `get_sha1_hex`
does over a 40-character run (fails on any non-hex character). -/
def hexDecode : List Nat → Option (List Nat)
  | [] => some []
  | [_] => none
  | a :: b :: rest =>
    match hexVal a, hexVal b, hexDecode rest with
    | some x, some y, some r => some ((16 * x + y) :: r)
    | _, _, _ => none

/-- Lowercase hex character for a nibble, as in git's `hex_byte` tables. -/
def hexChar (n : Nat) : Nat := if n < 10 then 48 + n else 87 + n

/-- Lowercase hex encoding of a byte string, as `oid_to_hex`/`hg_oid_to_hex`. -/
def hexEncode : List Nat → List Nat
  | [] => []
  | b :: rest => hexChar (b / 16) :: hexChar (b % 16) :: hexEncode rest

/-- Mercurial node id: 20 bytes. -/
abbrev HgOid := List Nat

/-- Git object id: 20 bytes. -/
abbrev GitOid := List Nat

/-- The all-zero oid recognised by `is_null_oid` / `is_null_hg_oid`. -/
def nullOid : List Nat := List.replicate 20 0

/-! ## PackWindow (`hashwrite` in cinnabar-fast-import.c)

The sliding tail window kept over the in-progress packfile.  Only the
offset/length bookkeeping is modelled; the actual byte copies into
`pack_win->base` do not affect the claimed invariants. -/

/-- Offset/length bookkeeping of the fake tail pack window plus the running
pack size (`pack_data->pack_size`). -/
structure PackWin where
  offset : Nat
  len : Nat
  packSize : Nat
deriving DecidableEq

/-- State after the first call to `hashwrite` allocates the window:
`offset = 0`, `len = 20` and `pack_data->pack_size = pack_win->len`. -/
def initPackWin : PackWin := ⟨0, 20, 20⟩

/-- One `hashwrite` call writing `count` bytes to the pack file, for the
configured `packed_git_window_size` `W`.  Mirrors the append branch
(`window_size + 20 - pack_win->len > count`) and the slide branch
(recomputing `pack_win->offset` and `pack_win->len`). -/
def hashwrite (W : Nat) (s : PackWin) (count : Nat) : PackWin :=
  let packSize := s.packSize + count
  let windowSize := W + (if s.offset ≠ 0 then 20 else 0)
  if windowSize + 20 - s.len > count then
    { offset := s.offset, len := s.len + count, packSize := packSize }
  else
    let offset := ((packSize - 20) / W) * W - 20
    { offset := offset, len := packSize - offset, packSize := packSize }

/-- Largest multiple of `W` that is strictly less than `n` (the offset the
spec sentence claims the slide computes). -/
def largestMultBelow (W n : Nat) : Nat := ((n - 1) / W) * W

/-! ## FileStore (`store_file` in cinnabar-fast-import.c) -/

/-- One byte-range diff of a Mercurial revision chunk
(`struct rev_diff_part`): replace `[dstart, dend)` of the base revision by
`data`. -/
structure RevDiff where
  dstart : Nat
  dend : Nat
  data : List Nat
deriving DecidableEq

/-- A Mercurial revision chunk (`struct rev_chunk`) after parsing. -/
structure RevChunk where
  node : HgOid
  parent1 : HgOid
  parent2 : HgOid
  delta_node : HgOid
  diffs : List RevDiff
deriving DecidableEq

/-- The diff-application loop of `store_file` (lines 600-616): the checks
`diff.start > last_file.file.len || diff.start < last_end`, the copy of
`base[last_end, diff.start)` plus `diff.data`, and after the loop the check
`last_file.file.len < last_end` followed by the final copy. -/
def store_file_apply (base : List Nat) : List RevDiff → Nat → List Nat → Except Unit (List Nat)
  | [], last_end, acc =>
    if base.length < last_end then .error ()
    else .ok (acc ++ base.drop last_end)
  | d :: ds, last_end, acc =>
    if d.dstart > base.length ∨ d.dstart < last_end then .error ()
    else store_file_apply base ds d.dend
      (acc ++ ((base.drop last_end).take (d.dstart - last_end)) ++ d.data)

/-- Claim-side predicate: some diff `d` (with `last_end` the previous
diff's end, initially 0) has `d.start > len`, `d.start < last_end`, or
`d.end > len`. -/
def hasMalformedFileDiff (len : Nat) : List RevDiff → Nat → Bool
  | [], _ => false
  | d :: ds, last_end =>
    decide (d.dstart > len) || decide (d.dstart < last_end) ||
    decide (d.dend > len) || hasMalformedFileDiff len ds d.dend

/-- Claim-side reconstruction: the base content with each range
`[d.start, d.end)` replaced by `d.data`, in diff order. -/
def replaceRanges (base : List Nat) : List RevDiff → Nat → List Nat
  | [], last_end => base.drop last_end
  | d :: ds, last_end =>
    ((base.drop last_end).take (d.dstart - last_end)) ++ d.data ++
      replaceRanges base ds d.dend

/-! ## HeadsSet (`ensure_heads` / `add_head` in cinnabar-fast-import.c) -/

/-- A parsed git commit as the heads machinery sees it: its parent oids
(`commit->parents`) and its raw commit buffer (`get_commit_buffer`). -/
structure Commit where
  parents : List GitOid
  msg : List Nat
deriving DecidableEq

/-- Bytes after the first blank line of a commit buffer:
`strstr(msg, "\n\n") + 2`.  (When no blank line exists the C code would
dereference `NULL`; commit buffers always contain one, and the model
returns `[]` there.) -/
def commitBody : List Nat → List Nat
  | 10 :: 10 :: rest => rest
  | _ :: rest => commitBody rest
  | [] => []

/-- An `oid_array` with its `sorted` flag, which `ensure_heads` doubles as
the "initialized" flag. -/
structure HeadsState where
  sorted : Bool
  heads : List GitOid
deriving DecidableEq

/-- Modelled from the spec: `oid_array_lookup` (git's `oid-array.c`, not
part of this repository's sources) — binary search over the
ascending-sorted array, returning the index when found and
`-(insertion point)-1` otherwise.  On a sorted array this linear scan
returns exactly the binary-search result. -/
def oid_array_lookup_aux : List GitOid → GitOid → Nat → Int
  | [], _, i => -(i + 1 : Int)
  | y :: ys, x, i =>
    match bytesCmp x y with
    | .lt => -(i + 1 : Int)
    | .eq => (i : Int)
    | .gt => oid_array_lookup_aux ys x (i + 1)

/-- Modelled from the spec: see `oid_array_lookup_aux`. -/
def oid_array_lookup (l : List GitOid) (x : GitOid) : Int :=
  oid_array_lookup_aux l x 0

/-- The body of `add_head` after its `ensure_heads` call: look up the
commit (`parse_commit_or_die` fails when it is unknown), remove every
parent found in the set, then insert the oid at its sorted position
unless already present. -/
def add_head_core (commits : GitOid → Option Commit) (heads : List GitOid)
    (oid : GitOid) : Option (List GitOid) :=
  match commits oid with
  | none => none
  | some c =>
    let heads := c.parents.foldl
      (fun hs p =>
        let pos := oid_array_lookup hs p
        if 0 ≤ pos then hs.eraseIdx pos.toNat else hs)
      heads
    let pos := oid_array_lookup heads oid
    if 0 ≤ pos then some heads
    else some (heads.insertIdx (-pos - 1).toNat oid)

/-- The sentinel line tested by `ensure_heads` for manifest heads. -/
def flatManifestSentinel : List Nat := strBytes "has-flat-manifest-tree"

/-- The parent loop of `ensure_heads`: each parent of the ref tip commit is
appended, except that (manifest heads only) the first parent is skipped
when `!strcmp(body, "has-flat-manifest-tree")`, and a parent equal to the
last array element falls back to `add_head`. -/
def ensure_heads_loop (commits : GitOid → Option Commit) (isManifest : Bool)
    (body : List Nat) : List GitOid → Bool → List GitOid → Option (List GitOid)
  | [], _, heads => some heads
  | p :: ps, isFirst, heads =>
    if isManifest && isFirst && (body == flatManifestSentinel) then
      ensure_heads_loop commits isManifest body ps false heads
    else if heads.isEmpty || (heads.getLast? != some p) then
      ensure_heads_loop commits isManifest body ps false (heads ++ [p])
    else
      match add_head_core commits heads p with
      | none => none
      | some heads' => ensure_heads_loop commits isManifest body ps false heads'

/-- `ensure_heads`: a sorted array is already initialized; otherwise mark
it sorted and seed it from the parents of the tip commit of
`CHANGESETS_REF`/`MANIFESTS_REF` (`tip`, `none` when the ref does not
resolve). -/
def ensure_heads (commits : GitOid → Option Commit) (tip : Option Commit)
    (isManifest : Bool) (hs : HeadsState) : Option HeadsState :=
  if hs.sorted then some hs
  else
    match tip with
    | none => some ⟨true, hs.heads⟩
    | some c =>
      match ensure_heads_loop commits isManifest (commitBody c.msg)
          c.parents true hs.heads with
      | none => none
      | some heads => some ⟨true, heads⟩

/-- `add_head`: `ensure_heads` followed by the parent-removal/insert body. -/
def add_head (commits : GitOid → Option Commit) (tip : Option Commit)
    (isManifest : Bool) (hs : HeadsState) (oid : GitOid) : Option HeadsState :=
  match ensure_heads commits tip isManifest hs with
  | none => none
  | some hs' =>
    match add_head_core commits hs'.heads oid with
    | none => none
    | some heads => some ⟨hs'.sorted, heads⟩

/-- Strictly-ascending-by-oid property of a heads array. -/
def strictlyAscending (l : List GitOid) : Prop :=
  List.Pairwise bytesLtP l

instance (l : List GitOid) : Decidable (strictlyAscending l) := by
  unfold strictlyAscending; infer_instance

/-! ## Changeset conflict handling (`handle_changeset_conflict`) -/

/-- Validation of a `git2hg` note blob performed inside
`handle_changeset_conflict` (lines 421-429): fail when `len < 50`, when the
content does not start with `"changeset "`, or when `get_sha1_hex` rejects
the 40 characters after that; otherwise return the decoded changeset id. -/
def parseGit2hgNote (content : List Nat) : Option HgOid :=
  if content.length < 50 then none
  else if ¬ listStartsWith (strBytes "changeset ") content then none
  else hexDecode ((content.drop 10).take 40)

/-- Result of the conflict-resolution loop.  `invalidNote` is the
`die("Invalid git2hg note ...")` branch, `readFail` a failing
`read_object_file_extended` (fatal in C), `noFuel` models running out of
the explicit iteration budget (the C loop has none). -/
inductive CCResult where
  | ok (g : GitOid)
  | invalidNote
  | readFail
  | noFuel
deriving DecidableEq

/-- `handle_changeset_conflict` (lines 407-449): while the candidate commit
oid has a `git2hg` note, validate the note; stop when it already names
`hg_id`; otherwise append one NUL byte to the commit body (read lazily into
`buf` on the first append) and re-store, continuing with the new oid.
`git2hg` maps commit oids to note oids, `readObj` reads object contents,
and `hashCommit` is the object-store hash (`store_object` with
`OBJ_COMMIT`). -/
def handle_changeset_conflict (git2hg : GitOid → Option GitOid)
    (readObj : GitOid → Option (List Nat)) (hashCommit : List Nat → GitOid)
    (hg_id : HgOid) : Nat → GitOid → Option (List Nat) → CCResult
  | fuel, g, buf =>
    match git2hg g with
    | none => .ok g
    | some note =>
      match readObj note with
      | none => .readFail
      | some content =>
        match parseGit2hgNote content with
        | none => .invalidNote
        | some oid =>
          if oid = hg_id then .ok g
          else
            match fuel with
            | 0 => .noFuel
            | fuel' + 1 =>
              match (match buf with | some b => some b | none => readObj g) with
              | none => .readFail
              | some b =>
                handle_changeset_conflict git2hg readObj hashCommit hg_id
                  fuel' (hashCommit (b ++ [0])) (some (b ++ [0]))

/-- Injectivity of a notes map on its domain: no two distinct keys map to
the same oid. -/
def notesInjective (m : HgOid → Option GitOid) : Prop :=
  ∀ h₁ h₂ g, m h₁ = some g → m h₂ = some g → h₁ = h₂

/-- The `git2hg` back-pointer invariant: every `hg2git` image has a
`git2hg` note blob naming its preimage. -/
def git2hgConsistent (hg2git : HgOid → Option GitOid)
    (git2hg : GitOid → Option GitOid)
    (readObj : GitOid → Option (List Nat)) : Prop :=
  ∀ h g, hg2git h = some g →
    ∃ note content, git2hg g = some note ∧ readObj note = some content ∧
      parseGit2hgNote content = some h

/-! ## `do_set` (the `set` command) -/

/-- Git object kinds as classified by `oid_object_info`. -/
inductive ObjKind where
  | blob
  | tree
  | commit
  | tag
deriving DecidableEq

/-- The external collaborators `do_set` consults: `oid_object_info`,
`read_object_file`, commit parsing for `add_head`, and the
`MANIFESTS_REF` tip used by `ensure_heads`. -/
structure Repo where
  objType : GitOid → Option ObjKind
  readObj : GitOid → Option (List Nat)
  commits : GitOid → Option Commit
  manifestsTip : Option Commit

/-- The singleton state `do_set` mutates: the three notes trees and the two
heads arrays. -/
structure CinnabarState where
  hg2git : HgOid → Option GitOid
  git2hg : GitOid → Option GitOid
  files_meta : HgOid → Option GitOid
  manifest_heads : HeadsState
  changeset_heads : HeadsState

/-- `remove_note` / `remove_note_hg` on a modelled notes map. -/
def remove_note (m : List Nat → Option GitOid) (k : List Nat) :
    List Nat → Option GitOid :=
  fun k' => if k' = k then none else m k'

/-- `add_note` / `add_note_hg` on a modelled notes map. -/
def add_note (m : List Nat → Option GitOid) (k : List Nat) (v : GitOid) :
    List Nat → Option GitOid :=
  fun k' => if k' = k then some v else m k'

/-- The main notes branch of `do_set` (lines 511-522), shared by the
`file`, `manifest`, `changeset` and `file-meta` kinds: removal for the null
oid, otherwise the `oid_object_info` type check, the conflict handling for
changesets, `add_note_hg`, and the `add_head` on `manifest_heads` for the
`manifest` kind. -/
def do_set_main (repo : Repo) (hashCommit : List Nat → GitOid) (fuel : Nat)
    (ty : ObjKind) (useManifestHeads is_changeset : Bool)
    (useFilesMeta : Bool) (hg_id : HgOid) (git_id : GitOid)
    (st : CinnabarState) : Except Unit CinnabarState :=
  if git_id = nullOid then
    if useFilesMeta then
      .ok { st with files_meta := remove_note st.files_meta hg_id }
    else
      .ok { st with hg2git := remove_note st.hg2git hg_id }
  else if repo.objType git_id ≠ some ty then .error ()
  else
    let resolved : Except Unit GitOid :=
      if is_changeset then
        match handle_changeset_conflict st.git2hg repo.readObj hashCommit
            hg_id fuel git_id none with
        | .ok g => .ok g
        | _ => .error ()
      else .ok git_id
    match resolved with
    | .error e => .error e
    | .ok g =>
      let st' :=
        if useFilesMeta then { st with files_meta := add_note st.files_meta hg_id g }
        else { st with hg2git := add_note st.hg2git hg_id g }
      if useManifestHeads then
        match add_head repo.commits repo.manifestsTip true st'.manifest_heads g with
        | none => .error ()
        | some hs => .ok { st' with manifest_heads := hs }
      else .ok st'

/-- `do_set` (lines 451-523), after argument parsing: dispatch on the kind
string, with the `changeset-metadata` kind updating `git2hg` through the
`hg2git` indirection and every other known kind updating `hg2git` or
`files_meta` directly. -/
def do_set (repo : Repo) (hashCommit : List Nat → GitOid) (fuel : Nat)
    (kind : String) (hg_id : HgOid) (git_id : GitOid)
    (st : CinnabarState) : Except Unit CinnabarState :=
  if kind = "file" then
    do_set_main repo hashCommit fuel .blob false false false hg_id git_id st
  else if kind = "manifest" then
    do_set_main repo hashCommit fuel .commit true false false hg_id git_id st
  else if kind = "changeset" then
    do_set_main repo hashCommit fuel .commit false true false hg_id git_id st
  else if kind = "changeset-metadata" then
    match st.hg2git hg_id with
    | some note =>
      if git_id = nullOid then
        .ok { st with git2hg := remove_note st.git2hg note }
      else if repo.objType git_id ≠ some .blob then .error ()
      else .ok { st with git2hg := add_note st.git2hg note git_id }
    | none => if git_id ≠ nullOid then .error () else .ok st
  else if kind = "file-meta" then
    do_set_main repo hashCommit fuel .blob false false true hg_id git_id st
  else .error ()

/-! ## FileStore state (`store_file` / `hg_file_store`) -/

/-- Modelled from the spec: Mercurial's well-known empty-file sentinel node
(`empty_hg_file` in hg-data.c, which is not among the provided sources). -/
def empty_hg_file : HgOid :=
  [0xb8, 0x0d, 0xe5, 0xd1, 0x38, 0x75, 0x85, 0x41, 0xc5, 0xf0,
   0x52, 0x65, 0xad, 0x14, 0x4a, 0xb9, 0xfa, 0x86, 0xd1, 0xdb]

/-- Modelled from the spec: `is_empty_hg_file` (hg-data.c) — a node equals
the well-known empty-file sentinel. -/
def is_empty_hg_file (node : HgOid) : Bool := node == empty_hg_file

/-- Persistent file-store state: the two notes maps `store_file` touches,
the static `last_file` cache (node plus raw file bytes), and the blobs
appended to the object store this session. -/
structure FSState where
  hg2git : HgOid → Option GitOid
  files_meta : HgOid → Option GitOid
  last_file : Option (HgOid × List Nat)
  stored : List (GitOid × List Nat)

/-- Modelled from the spec: the Mercurial metadata marker split performed
by `hg_file_from_memory` (hg-data.c) — a `\x01\n`-delimited metadata block
at the front of the reconstructed bytes is separated from the stored
content. -/
def splitHgMetadata (d : List Nat) : Option (List Nat) × List Nat :=
  if listStartsWith [1, 10] d then
    let rest := d.drop 2
    let i := (List.range rest.length).findIdx
      (fun k => rest.getD k 0 == 1 && rest.getD (k + 1) 0 == 10)
    if i < rest.length then (some (rest.take i), rest.drop (i + 2))
    else (none, d)
  else (none, d)

/-- `store_file` (lines 581-624) as a state transformer.  The early return
for the empty-file sentinel, the `last_file` cache check, the base load via
`hg2git` (`hg_file_load`, modelled from the spec since hg-data.c is not in
the provided sources), the diff application `store_file_apply`, and
`hg_file_store`'s metadata- and content-blob writes with their
`files_meta`/`hg2git` note updates.  `hashBlob` is the object-store hash
for blobs. -/
def store_file (readObj : GitOid → Option (List Nat))
    (hashBlob : List Nat → GitOid) (chunk : RevChunk) (st : FSState) :
    Except Unit FSState :=
  if is_empty_hg_file chunk.node then .ok st
  else
    let base : Except Unit (List Nat) :=
      match st.last_file with
      | some (o, bytes) =>
        if chunk.delta_node = o then .ok bytes
        else if chunk.delta_node = nullOid then .ok []
        else
          match (st.hg2git chunk.delta_node).bind readObj with
          | none => .error ()
          | some b => .ok b
      | none =>
        if chunk.delta_node = nullOid then .ok []
        else
          match (st.hg2git chunk.delta_node).bind readObj with
          | none => .error ()
          | some b => .ok b
    match base with
    | .error e => .error e
    | .ok baseBytes =>
      match store_file_apply baseBytes chunk.diffs 0 [] with
      | .error e => .error e
      | .ok dataBytes =>
        let (meta, content) := splitHgMetadata dataBytes
        let st₁ :=
          match meta with
          | some m =>
            { st with files_meta := add_note st.files_meta chunk.node (hashBlob m),
                      stored := st.stored ++ [(hashBlob m, m)] }
          | none => st
        .ok { st₁ with
              hg2git := add_note st₁.hg2git chunk.node (hashBlob content),
              stored := st₁.stored ++ [(hashBlob content, content)],
              last_file := some (chunk.node, dataBytes) }

/-! ## ManifestStore: lines, parsing, the mirror tree -/

/-- One parsed manifest line (`struct manifest_line`): path, decoded node,
and attribute byte (`0` for regular files, `'x'` = 120 or `'l'` = 108). -/
structure ManifestLine where
  lpath : List Nat
  loid : List Nat
  lattr : Nat
deriving DecidableEq

/-- Textual form of one manifest line: `<path>\0<40-hex><attr?>\n`. -/
def renderLine (l : ManifestLine) : List Nat :=
  l.lpath ++ 0 :: (hexEncode l.loid ++ (if l.lattr = 0 then [] else [l.lattr]) ++ [10])

/-- Concatenated textual manifest for a list of lines. -/
def renderLines (ls : List ManifestLine) : List Nat :=
  (ls.map renderLine).flatten

/-- Well-formedness of a manifest line as stored: nonempty path free of NUL
and newline bytes, a 20-byte node, and a legal attribute. -/
def wfLine (l : ManifestLine) : Prop :=
  l.lpath ≠ [] ∧ (∀ b ∈ l.lpath, b ≠ 0 ∧ b ≠ 10) ∧
  l.loid.length = 20 ∧ (∀ b ∈ l.loid, b < 256) ∧
  (l.lattr = 0 ∨ l.lattr = 120 ∨ l.lattr = 108)

/-- `split_manifest_line` (lines 632-659): split at the first NUL, reject
an empty path, require at least 41 further bytes, `get_sha1_hex` the next
40, classify the attribute byte (`'l'`/`'x'` consumed, `'\n'` meaning "no
attribute"), and require the terminating newline.  Returns the parsed line
and the number of bytes consumed. -/
def split_manifest_line (s : List Nat) : Option (ManifestLine × Nat) :=
  if s.findIdx (· == 0) = 0 then none
  else if (s.drop (s.findIdx (· == 0) + 1)).length < 41 then none
  else
    match hexDecode ((s.drop (s.findIdx (· == 0) + 1)).take 40) with
    | none => none
    | some oid =>
      match (s.drop (s.findIdx (· == 0) + 1)).drop 40 with
      | [] => none
      | a :: s₃ =>
        if a = 108 ∨ a = 120 then
          match s₃ with
          | 10 :: _ => some (⟨s.take (s.findIdx (· == 0)), oid, a⟩,
              s.findIdx (· == 0) + 43)
          | _ => none
        else if a = 10 then
          some (⟨s.take (s.findIdx (· == 0)), oid, 0⟩, s.findIdx (· == 0) + 42)
        else none

/-- Fuelled version of the `while (split_manifest_line(...) == 0)` loops:
parse lines until the first failure. -/
def parse_manifest_lines_fuel : Nat → List Nat → List ManifestLine
  | 0, _ => []
  | fuel + 1, s =>
    match split_manifest_line s with
    | none => []
    | some (l, n) => l :: parse_manifest_lines_fuel fuel (s.drop n)

/-- Parse manifest lines until the first failure (each parsed line consumes
at least one byte, so `s.length` steps always suffice). -/
def parse_manifest_lines (s : List Nat) : List ManifestLine :=
  parse_manifest_lines_fuel s.length s

/-- `manifest_metadata_path` (lines 680-694): prefix every `/`-separated
path component with `_` (so `a/b` becomes `_a/_b`). -/
def mmpAux : List Nat → List Nat
  | [] => []
  | c :: rest => if c = 47 then 47 :: 95 :: mmpAux rest else c :: mmpAux rest

/-- See `mmpAux`: the full transformed path starts with `_`. -/
def manifest_metadata_path (p : List Nat) : List Nat := 95 :: mmpAux p

/-- One entry of the in-memory manifest mirror: underscore-prefixed git
path, value oid, and git file mode. -/
structure MEntry where
  gpath : List Nat
  eoid : List Nat
  emode : Nat
deriving DecidableEq

/-- The manifest mirror, flattened to its depth-first, name-ordered entry
list (the order in which `manifest_tree_advance` visits file entries, which
by the underscore naming convention coincides with the manifest's textual
line order; directory nodes carry no bytes of their own). -/
abbrev MTree := List MEntry

/-- Modelled from the spec: `tree_content_set` (git's fast-import.c, of
which only a patch is among the provided sources) — insert or replace the
entry for a path in the mirror, keeping entries in git tree name order. -/
def tree_content_set : MTree → List Nat → List Nat → Nat → MTree
  | [], g, oid, mode => [⟨g, oid, mode⟩]
  | e :: rest, g, oid, mode =>
    match bytesCmp g e.gpath with
    | .lt => ⟨g, oid, mode⟩ :: e :: rest
    | .eq => ⟨g, oid, mode⟩ :: rest
    | .gt => e :: tree_content_set rest g oid mode

/-- Modelled from the spec: `tree_content_remove` (git's fast-import.c) —
drop the entry for a path from the mirror; removing an absent path is a
no-op for `old_store_manifest`, which ignores the return value. -/
def tree_content_remove (t : MTree) (g : List Nat) : MTree :=
  t.filter (fun e => !(e.gpath == g))

/-- Bytes one mirror entry contributes to the textual manifest, as counted
by `new_store_manifest` (lines 986-994): the underscore-prefixed component
lengths (which equal the Mercurial path length plus its terminating NUL)
plus 40 hex characters, one attribute byte unless the mode's permission
bits are `0644`, and the newline. -/
def mirrorLineLen (e : MEntry) : Nat :=
  (e.gpath.length - e.gpath.countP (· == 47)) + 40 +
    (if Nat.land e.emode 0o777 ≠ 0o644 then 1 else 0) + 1

/-- Git mode chosen for a manifest attribute byte (lines 798-805):
`0160644`, `0160755`, `0160000`. -/
def modeForAttr (a : Nat) : Nat :=
  if a = 0 then 0o160644 else if a = 120 then 0o160755
  else if a = 108 then 0o160000 else 0

/-- The mirror entry corresponding to one manifest line. -/
def lineToEntry (l : ManifestLine) : MEntry :=
  ⟨manifest_metadata_path l.lpath, l.loid, modeForAttr l.lattr⟩

/-! ## The two manifest-store strategies -/

/-- First pass of `old_store_manifest` (lines 745-787): per-diff range and
line-boundary checks against the previous manifest text, accumulation of
the new text, and removal from the mirror of every line parsed out of the
replaced slice.  Returns the accumulated text, the mirror after removals,
and the final `last_end`. -/
def old_manifest_pass1 (prev : List Nat) :
    List RevDiff → Nat → List Nat → MTree → Except Unit (List Nat × MTree × Nat)
  | [], last_end, acc, tree => .ok (acc, tree, last_end)
  | d :: ds, last_end, acc, tree =>
    if d.dstart > prev.length ∨ d.dstart < last_end ∨ d.dstart > d.dend then
      .error ()
    else
      let acc' := acc ++ (prev.drop last_end).take (d.dstart - last_end) ++ d.data
      if d.dstart > 0 ∧ prev.getD (d.dstart - 1) 0 ≠ 10 then .error ()
      else if d.dend > 0 ∧ prev.getD (d.dend - 1) 0 ≠ 10 then .error ()
      else
        let removed := (prev.drop d.dstart).take (d.dend - d.dstart)
        let tree' := (parse_manifest_lines removed).foldl
          (fun t l => tree_content_remove t (manifest_metadata_path l.lpath)) tree
        old_manifest_pass1 prev ds d.dend acc' tree'

/-- Insert the lines parsed out of one diff's added data (second pass,
shared verbatim by both strategies, lines 789-812 and 1097-1120): classify
the attribute into a git mode and `tree_content_set` the underscore path. -/
def manifest_add_lines : MTree → List ManifestLine → Except Unit MTree
  | tree, [] => .ok tree
  | tree, l :: ls =>
    match (if l.lattr = 0 then some 0o160644
           else if l.lattr = 120 then some 0o160755
           else if l.lattr = 108 then some 0o160000 else none : Option Nat) with
    | none => .error ()
    | some mode =>
      manifest_add_lines (tree_content_set tree (manifest_metadata_path l.lpath) l.loid mode) ls

/-- Second pass over the diffs, applying every diff's additions. -/
def manifest_additions : MTree → List RevDiff → Except Unit MTree
  | tree, [] => .ok tree
  | tree, d :: ds =>
    match manifest_add_lines tree (parse_manifest_lines d.data) with
    | .error e => .error e
    | .ok t => manifest_additions t ds

/-- `old_store_manifest`'s text-and-mirror core (lines 745-822): both
passes, the final `last_manifest_content.len < last_end` check, and the
tail copy producing the new manifest text. -/
def old_store_manifest_core (prev : List Nat) (tree : MTree)
    (diffs : List RevDiff) : Except Unit (List Nat × MTree) :=
  match old_manifest_pass1 prev diffs 0 [] tree with
  | .error e => .error e
  | .ok (acc, tree₁, last_end) =>
    match manifest_additions tree₁ diffs with
    | .error e => .error e
    | .ok tree₂ =>
      if prev.length < last_end then .error ()
      else .ok (acc ++ prev.drop last_end, tree₂)

/-- `manifest_tree_advance` (lines 967-1006) over the flattened mirror:
consume entries worth exactly `length` bytes of textual manifest, keeping
(`NO_DELETE`) or dropping (`DELETE`) the visited file entries; fail when a
line straddles the requested length or the tree is exhausted.  The cursor
is the pair of visited-and-kept entries and remaining entries. -/
def manifest_tree_advance (del : Bool) : MTree → MTree → Nat → Option (MTree × MTree)
  | kept, rem, 0 => some (kept, rem)
  | _, [], _ + 1 => none
  | kept, e :: rest, n + 1 =>
    if n + 1 < mirrorLineLen e then none
    else manifest_tree_advance del (if del then kept else kept ++ [e]) rest
      (n + 1 - mirrorLineLen e)

/-- First pass of `new_store_manifest` (lines 1062-1095): per-diff, skip
forward to `diff.start` without deleting, then delete
`diff.end - diff.start` bytes' worth of entries; `manifest_tree_finish`
keeps whatever remains. -/
def new_manifest_pass1 : List RevDiff → MTree → MTree → Nat → Except Unit MTree
  | [], kept, rem, _ => .ok (kept ++ rem)
  | d :: ds, kept, rem, last_end =>
    if d.dstart < last_end ∨ d.dstart > d.dend then .error ()
    else
      match manifest_tree_advance false kept rem (d.dstart - last_end) with
      | none => .error ()
      | some (kept₁, rem₁) =>
        match manifest_tree_advance true kept₁ rem₁ (d.dend - d.dstart) with
        | none => .error ()
        | some (kept₂, rem₂) => new_manifest_pass1 ds kept₂ rem₂ d.dend

/-- `new_store_manifest`'s mirror core (lines 1060-1120): the tree-walk
first pass followed by the shared additions pass. -/
def new_store_manifest_core (tree : MTree) (diffs : List RevDiff) :
    Except Unit MTree :=
  match new_manifest_pass1 diffs [] tree 0 with
  | .error e => .error e
  | .ok tree₁ => manifest_additions tree₁ diffs

/-- The literal commit bytes both strategies emit (lines 828-843 and
1128-1142): `tree`, optional `parent` lines, the fixed author/committer
lines with their double space and `0 +0000` timestamps, and the manifest
node's 40-hex with no trailing newline. -/
def buildManifestCommit (treeOid : GitOid) (parentLines : List Nat)
    (node : HgOid) : List Nat :=
  strBytes "tree " ++ hexEncode treeOid ++ [10] ++ parentLines ++
  strBytes "author  <cinnabar@git> 0 +0000\n" ++
  strBytes "committer  <cinnabar@git> 0 +0000\n" ++ [10] ++ hexEncode node

/-! ## Concrete instances used by counterexamples and witnesses -/

/-- The 20-byte node `A` of scenario S4. -/
def oidA : List Nat := List.replicate 20 170

/-- The manifest line `a\0<40hex A>\n` of scenario S4. -/
def lineA : ManifestLine := ⟨[97], oidA, 0⟩

/-- The previous manifest text of scenario S4 (43 bytes). -/
def prevS4 : List Nat := renderLine lineA

/-- The previous manifest mirror of scenario S4: the single entry `_a`
pointing at `A`. -/
def treeS4 : MTree := [lineToEntry lineA]

/-! ## Order lemmas for `bytesCmp` -/

lemma bytesCmp_eq_iff : ∀ a b : List Nat, bytesCmp a b = .eq ↔ a = b := by
  intro a
  induction a with
  | nil => intro b; cases b <;> simp [bytesCmp]
  | cons x xs ih =>
    intro b
    cases b with
    | nil => simp [bytesCmp]
    | cons y ys =>
      simp only [bytesCmp]
      rcases Nat.lt_trichotomy x y with h | h | h
      · simp [h]; omega
      · subst h; simp [Nat.lt_irrefl, ih]
      · rw [if_neg (by omega), if_pos h]; simp; omega

lemma bytesCmp_self (a : List Nat) : bytesCmp a a = .eq :=
  (bytesCmp_eq_iff a a).mpr rfl

lemma bytesCmp_gt_iff : ∀ a b : List Nat, bytesCmp a b = .gt ↔ bytesCmp b a = .lt := by
  intro a
  induction a with
  | nil => intro b; cases b <;> simp [bytesCmp]
  | cons x xs ih =>
    intro b
    cases b with
    | nil => simp [bytesCmp]
    | cons y ys =>
      simp only [bytesCmp]
      rcases Nat.lt_trichotomy x y with h | h | h
      · rw [if_pos h, if_neg (by omega), if_pos h]; simp
      · subst h; simp [Nat.lt_irrefl, ih]
      · rw [if_neg (by omega), if_pos h, if_pos h]; simp

lemma bytesLtP_trans : ∀ a b c : List Nat, bytesLtP a b → bytesLtP b c → bytesLtP a c := by
  intro a
  induction a with
  | nil =>
    intro b c hab hbc
    cases b with
    | nil => exact hbc
    | cons y ys =>
      cases c with
      | nil => simp [bytesLtP, bytesCmp] at hbc
      | cons z zs => simp [bytesLtP, bytesCmp]
  | cons x xs ih =>
    intro b c hab hbc
    cases b with
    | nil => simp [bytesLtP, bytesCmp] at hab
    | cons y ys =>
      cases c with
      | nil => simp [bytesLtP, bytesCmp] at hbc
      | cons z zs =>
        simp only [bytesLtP, bytesCmp] at hab hbc ⊢
        rcases Nat.lt_trichotomy x y with h1 | h1 | h1
        · rcases Nat.lt_trichotomy y z with h2 | h2 | h2
          · rw [if_pos (by omega)]
          · subst h2; rw [if_pos h1]
          · rw [if_neg (by omega), if_pos h2] at hbc; exact absurd hbc (by simp)
        · subst h1
          rcases Nat.lt_trichotomy x z with h2 | h2 | h2
          · rw [if_pos h2]
          · subst h2
            rw [if_neg (Nat.lt_irrefl x), if_neg (Nat.lt_irrefl x)] at hab hbc ⊢
            exact ih ys zs hab hbc
          · rw [if_neg (by omega), if_pos h2] at hbc; exact absurd hbc (by simp)
        · rw [if_neg (by omega), if_pos h1] at hab; exact absurd hab (by simp)

lemma bytesLtP_irrefl (a : List Nat) : ¬ bytesLtP a a := by
  unfold bytesLtP
  rw [bytesCmp_self]
  simp

lemma bytesLtP_ne {a b : List Nat} (h : bytesLtP a b) : a ≠ b := by
  intro he; subst he; exact bytesLtP_irrefl a h

lemma bytesLtP_asymm {a b : List Nat} (h : bytesLtP a b) : ¬ bytesLtP b a :=
  fun h' => bytesLtP_irrefl a (bytesLtP_trans a b a h h')

lemma strictlyAscending_nodup {l : List GitOid} (h : strictlyAscending l) :
    l.Nodup :=
  h.imp (fun hab => bytesLtP_ne hab)

/-! ## C7: pack window -/

/-- C7 (counterexample): writing 1025 bytes to the fresh window with
`W = 1024` slides the window, but the new offset is 1004, not the largest
multiple of `W` below `pack_size - 20` (which is 1024): the code computes
that multiple and then subtracts a further 20 bytes. -/
theorem hashwrite_offset_formula_counterexample :
    (hashwrite 1024 initPackWin 1025).offset ≠ initPackWin.offset ∧
    (hashwrite 1024 initPackWin 1025).offset = 1004 ∧
    largestMultBelow 1024 (initPackWin.packSize + 1025 - 20) = 1024 ∧
    (1004 : Nat) ≠ 1024 := by
  refine ⟨?_, ?_, ?_, ?_⟩ <;> decide

/-- The inductive invariant of the fake pack window between writes. -/
def packWinInv (W : Nat) (s : PackWin) : Prop :=
  s.offset + s.len = s.packSize ∧ 20 ≤ s.len ∧
  s.len ≤ W + (if s.offset ≠ 0 then 20 else 0) + 20

instance (W : Nat) (s : PackWin) : Decidable (packWinInv W s) := by
  unfold packWinInv; infer_instance

/-- C7 (amended): `tail.offset + tail.len = pack_size` holds initially and
is preserved by every `hashwrite`, and when a write slides the window the
new offset is 20 *less* than the largest multiple of `W` that is at most
`pack_size - 20` (not that multiple itself, as the spec sentence says). -/
theorem hashwrite_window_invariants (W : Nat) (hW : 20 < W) (s : PackWin)
    (count : Nat) (h : packWinInv W s) :
    packWinInv W initPackWin ∧
    packWinInv W (hashwrite W s count) ∧
    (hashwrite W s count).offset + (hashwrite W s count).len =
      (hashwrite W s count).packSize ∧
    (¬ (W + (if s.offset ≠ 0 then 20 else 0) + 20 - s.len > count) →
      ∃ q, 1 ≤ q ∧ (hashwrite W s count).offset = W * q - 20 ∧
        W * q ≤ s.packSize + count - 20 ∧
        s.packSize + count - 20 < W * (q + 1)) := by
  obtain ⟨hsum, hlo, hhi⟩ := h
  have hinit : packWinInv W initPackWin := ⟨rfl, le_refl _, by simp [initPackWin]⟩
  set extra := (if s.offset ≠ 0 then 20 else 0) with hextra
  by_cases hc : W + extra + 20 - s.len > count
  · have h1 : hashwrite W s count =
        { offset := s.offset, len := s.len + count, packSize := s.packSize + count } := by
      unfold hashwrite
      rw [← hextra, if_pos hc]
    rw [h1]
    simp only [packWinInv]
    dsimp only
    rw [← hextra]
    exact ⟨hinit, ⟨by omega, by omega, by omega⟩, by omega, fun hn => absurd hc hn⟩
  · have h1 : hashwrite W s count =
        { offset := ((s.packSize + count - 20) / W) * W - 20,
          len := s.packSize + count - (((s.packSize + count - 20) / W) * W - 20),
          packSize := s.packSize + count } := by
      unfold hashwrite
      rw [← hextra, if_neg hc]
    set S := s.packSize + count with hS
    set q := (S - 20) / W with hq
    have hkey : ((S - 20) / W) * W = W * q := by
      rw [hq]; exact Nat.mul_comm _ _
    have hdm := Nat.div_add_mod (S - 20) W
    rw [← hq] at hdm
    have hmod : (S - 20) % W < W := Nat.mod_lt _ (by omega)
    have hbig : W + 20 ≤ S := by omega
    have hq1 : 1 ≤ q := by
      rcases Nat.eq_zero_or_pos q with h0 | h1
      · rw [h0, Nat.mul_zero, Nat.zero_add] at hdm
        omega
      · exact h1
    have hWone : W * 1 = W := Nat.mul_one W
    have hWmono : W * 1 ≤ W * q := Nat.mul_le_mul_left W hq1
    have hWq20 : 20 < W * q := by omega
    have hWq1 : W * (q + 1) = W * q + W := by ring
    rw [h1]
    simp only [packWinInv]
    dsimp only
    rw [hkey]
    rw [if_pos (show (W * q - 20 : Nat) ≠ 0 from by omega)]
    exact ⟨hinit, ⟨by omega, by omega, by omega⟩, by omega,
      fun _ => ⟨q, hq1, by omega, by omega, by omega⟩⟩

/-- C7 (witness): the amended invariants and slide formula at a concrete
write of 1025 bytes with `W = 1024`. -/
theorem hashwrite_window_invariants_witness :
    packWinInv 1024 (hashwrite 1024 initPackWin 1025) ∧
    (hashwrite 1024 initPackWin 1025).offset + (hashwrite 1024 initPackWin 1025).len =
      (hashwrite 1024 initPackWin 1025).packSize := by
  have h := hashwrite_window_invariants 1024 (by decide) initPackWin 1025 (by decide)
  exact ⟨h.2.1, h.2.2.1⟩

/-! ## C4: store_file diff validation -/

lemma store_file_apply_past_end (base : List Nat) :
    ∀ (ds : List RevDiff) (last_end : Nat) (acc : List Nat),
      base.length < last_end → store_file_apply base ds last_end acc = .error () := by
  intro ds
  induction ds with
  | nil =>
    intro last_end acc h
    simp only [store_file_apply]
    rw [if_pos h]
  | cons d ds ih =>
    intro last_end acc h
    simp only [store_file_apply]
    rw [if_pos (by omega)]

lemma store_file_apply_spec (base : List Nat) :
    ∀ (ds : List RevDiff) (last_end : Nat) (acc : List Nat),
      last_end ≤ base.length →
      store_file_apply base ds last_end acc =
        if hasMalformedFileDiff base.length ds last_end then .error ()
        else .ok (acc ++ replaceRanges base ds last_end) := by
  intro ds
  induction ds with
  | nil =>
    intro last_end acc h
    simp only [store_file_apply, hasMalformedFileDiff, replaceRanges]
    rw [if_neg (by omega), if_neg (by simp)]
  | cons d ds ih =>
    intro last_end acc h
    simp only [store_file_apply, hasMalformedFileDiff, replaceRanges]
    by_cases h1 : d.dstart > base.length ∨ d.dstart < last_end
    · rw [if_pos h1, if_pos (by rcases h1 with h1 | h1 <;> simp [h1])]
    · push_neg at h1
      rw [if_neg (by omega)]
      by_cases h2 : d.dend ≤ base.length
      · rw [ih d.dend _ h2]
        by_cases h3 : hasMalformedFileDiff base.length ds d.dend = true
        · rw [if_pos h3, if_pos (by simp [h3])]
        · rw [Bool.not_eq_true] at h3
          rw [if_neg (by simp [h3]), if_neg
            (by simp only [h3, Bool.or_false, Bool.or_eq_true, decide_eq_true_eq]; omega)]
          simp [List.append_assoc]
      · rw [store_file_apply_past_end base ds d.dend _ (by omega),
          if_pos (by simp only [Bool.or_eq_true, decide_eq_true_eq]; omega)]

/-- C4: the `store_file` diff-application loop fails exactly when some diff
(with `last_end` the previous diff's end, initially 0) has
`start > len(base)`, `start < last_end`, or `end > len(base)`; otherwise it
succeeds and produces the base content with each diff's range replaced by
its data, in order. -/
theorem store_file_malformed_characterization (base : List Nat)
    (diffs : List RevDiff) :
    store_file_apply base diffs 0 [] =
      if hasMalformedFileDiff base.length diffs 0 then .error ()
      else .ok (replaceRanges base diffs 0) := by
  rw [store_file_apply_spec base diffs 0 [] (Nat.zero_le _)]
  simp

/-! ## C8: empty-file sentinel -/

/-- C8: for a chunk whose node is the Mercurial empty-file sentinel,
`store_file` returns immediately: no blob is stored and `hg2git`,
`files_meta` and the `last_file` cache are all unchanged. -/
theorem store_file_empty_sentinel_noop (readObj : GitOid → Option (List Nat))
    (hashBlob : List Nat → GitOid) (chunk : RevChunk) (st : FSState)
    (h : is_empty_hg_file chunk.node = true) :
    store_file readObj hashBlob chunk st = .ok st := by
  unfold store_file
  rw [if_pos h]

/-- C8 (witness): the no-op at a concrete chunk and state. -/
theorem store_file_empty_sentinel_noop_witness :
    store_file (fun _ => none) (fun _ => nullOid)
      ⟨empty_hg_file, nullOid, nullOid, nullOid, []⟩
      ⟨fun _ => none, fun _ => none, none, []⟩ =
    .ok ⟨fun _ => none, fun _ => none, none, []⟩ :=
  store_file_empty_sentinel_noop _ _ _ _ (by decide)

/-! ## C9: `set` with the null oid -/

/-- C9: a `set` whose git oid is all-zero removes the key's note from the
selected notes tree (for `changeset-metadata`, the note for the `hg2git`
image of the key, when there is one) and nothing else: for every repository
(including ones where the oid's type lookup fails), every hash function and
every fuel, there is no object-type check, no conflict handling, and no
heads update. -/
theorem do_set_null_oid_removes_note :
    (∀ (repo : Repo) (hashCommit : List Nat → GitOid) (fuel : Nat)
       (hg : HgOid) (st : CinnabarState),
       do_set repo hashCommit fuel "file" hg nullOid st =
         .ok { st with hg2git := remove_note st.hg2git hg }) ∧
    (∀ (repo : Repo) (hashCommit : List Nat → GitOid) (fuel : Nat)
       (hg : HgOid) (st : CinnabarState),
       do_set repo hashCommit fuel "manifest" hg nullOid st =
         .ok { st with hg2git := remove_note st.hg2git hg }) ∧
    (∀ (repo : Repo) (hashCommit : List Nat → GitOid) (fuel : Nat)
       (hg : HgOid) (st : CinnabarState),
       do_set repo hashCommit fuel "changeset" hg nullOid st =
         .ok { st with hg2git := remove_note st.hg2git hg }) ∧
    (∀ (repo : Repo) (hashCommit : List Nat → GitOid) (fuel : Nat)
       (hg : HgOid) (st : CinnabarState),
       do_set repo hashCommit fuel "file-meta" hg nullOid st =
         .ok { st with files_meta := remove_note st.files_meta hg }) ∧
    (∀ (repo : Repo) (hashCommit : List Nat → GitOid) (fuel : Nat)
       (hg : HgOid) (st : CinnabarState),
       do_set repo hashCommit fuel "changeset-metadata" hg nullOid st =
         .ok (match st.hg2git hg with
              | some note => { st with git2hg := remove_note st.git2hg note }
              | none => st)) := by
  refine ⟨?_, ?_, ?_, ?_, ?_⟩ <;> intro repo hashCommit fuel hg st
  · rfl
  · rfl
  · rfl
  · rfl
  · unfold do_set
    rw [if_neg (by decide), if_neg (by decide), if_neg (by decide), if_pos rfl]
    cases h : st.hg2git hg <;> simp [h]

/-! ## C5: the sentinel comparison in `ensure_heads` -/

lemma ensure_heads_loop_notfirst (commits : GitOid → Option Commit)
    (isManifest : Bool) (body : List Nat) :
    ∀ (ps heads : List GitOid), (heads ++ ps).Nodup →
      ensure_heads_loop commits isManifest body ps false heads =
        some (heads ++ ps) := by
  intro ps
  induction ps with
  | nil => intro heads _; simp [ensure_heads_loop]
  | cons p ps ih =>
    intro heads hnd
    have hp : p ∉ heads := by
      intro hmem
      exact (List.disjoint_of_nodup_append hnd) hmem (by simp)
    have hlast : heads.isEmpty || (heads.getLast? != some p) := by
      cases heads with
      | nil => simp
      | cons x xs =>
        simp only [List.isEmpty_cons, Bool.false_or, bne_iff_ne, ne_eq]
        intro hl
        exact hp (List.mem_of_mem_getLast? hl)
    simp only [ensure_heads_loop, Bool.and_false, Bool.false_and,
      Bool.if_false_left] at *
    rw [if_neg (by simp), if_pos hlast]
    have := ih (heads ++ [p]) (by simpa using hnd)
    rw [this]
    simp

lemma ensure_heads_loop_first (commits : GitOid → Option Commit)
    (isManifest : Bool) (body : List Nat) (ps : List GitOid)
    (hnd : ps.Nodup) :
    ensure_heads_loop commits isManifest body ps true [] =
      some (if isManifest && (body == flatManifestSentinel) then ps.drop 1
            else ps) := by
  cases ps with
  | nil => cases h : isManifest && (body == flatManifestSentinel) <;>
      simp [ensure_heads_loop, h]
  | cons p ps =>
    cases h : isManifest && (body == flatManifestSentinel) with
    | true =>
      simp only [ensure_heads_loop, Bool.and_true]
      rw [if_pos h]
      rw [ensure_heads_loop_notfirst commits isManifest body ps []
        (by simpa using hnd.of_cons)]
      simp [h]
    | false =>
      simp only [ensure_heads_loop, Bool.and_true]
      rw [if_neg (by simp [h]), if_pos (by simp)]
      simp only [List.nil_append]
      rw [ensure_heads_loop_notfirst commits isManifest body ps [p]
        (by simpa using hnd)]
      simp [h]


lemma ensure_heads_init_eq (commits : GitOid → Option Commit) (c : Commit)
    (isManifest : Bool) (hnd : c.parents.Nodup) :
    ensure_heads commits (some c) isManifest ⟨false, []⟩ =
      some ⟨true,
        if isManifest && (commitBody c.msg == flatManifestSentinel)
        then c.parents.drop 1 else c.parents⟩ := by
  unfold ensure_heads
  rw [if_neg (by simp)]
  simp only
  rw [ensure_heads_loop_first commits isManifest (commitBody c.msg) c.parents hnd]

/-- C5 (counterexample): for a manifest tip commit whose body *begins with*
the sentinel line `has-flat-manifest-tree` but continues with more text,
the code's `!strcmp(body, "has-flat-manifest-tree")` does not match, so the
first parent is *not* skipped — against the claim, which predicts the
heads `[[2]]` here instead of `[[1], [2]]`. -/
theorem ensure_heads_sentinel_exact_match_counterexample :
    listStartsWith flatManifestSentinel
      (commitBody (strBytes "tree x\n\nhas-flat-manifest-tree\nextra")) = true ∧
    ensure_heads (fun _ => none)
      (some ⟨[[1], [2]], strBytes "tree x\n\nhas-flat-manifest-tree\nextra"⟩)
      true ⟨false, []⟩ = some ⟨true, [[1], [2]]⟩ ∧
    ([[1], [2]] : List GitOid) ≠ [[2]] := by
  refine ⟨by decide, by decide, by decide⟩

/-- C5 (amended): when `ensure_heads` initializes a heads set from a tip
commit (with pairwise-distinct parents), every parent is added in order,
except that for manifest heads the first parent is skipped exactly when the
commit body *equals* `has-flat-manifest-tree` (`strcmp`, not a prefix
match); for changeset heads no parent is ever skipped. -/
theorem ensure_heads_sentinel_exact_match (commits : GitOid → Option Commit)
    (c : Commit) (isManifest : Bool) (hnd : c.parents.Nodup) :
    ensure_heads commits (some c) isManifest ⟨false, []⟩ =
      some ⟨true,
        if isManifest && (commitBody c.msg == flatManifestSentinel)
        then c.parents.drop 1 else c.parents⟩ :=
  ensure_heads_init_eq commits c isManifest hnd

/-- C5 (witness): the amended behaviour at a concrete tip commit whose body
equals the sentinel exactly (first parent skipped) — applied to the general
theorem. -/
theorem ensure_heads_sentinel_exact_match_witness :
    ensure_heads (fun _ => none)
      (some ⟨[[1], [2]], strBytes "tree x\n\nhas-flat-manifest-tree"⟩)
      true ⟨false, []⟩ = some ⟨true, [[2]]⟩ :=
  (ensure_heads_sentinel_exact_match (fun _ => none)
    ⟨[[1], [2]], strBytes "tree x\n\nhas-flat-manifest-tree"⟩
    true (by decide)).trans (by decide)

/-! ## C6: heads-set sortedness and `add_head` -/

lemma oid_lookup_aux_spec (x : GitOid) :
    ∀ (hs : List GitOid) (i : Nat), List.Pairwise bytesLtP hs →
      (∃ n : Nat, oid_array_lookup_aux hs x i = (i + n : Int) ∧
          hs.eraseIdx n = hs.filter (fun e => !(e == x)) ∧ x ∈ hs) ∨
      (∃ n : Nat, oid_array_lookup_aux hs x i = -((i + n : Int) + 1) ∧ x ∉ hs ∧
          List.Pairwise bytesLtP (hs.insertIdx n x) ∧
          ∀ y, y ∈ hs.insertIdx n x ↔ (y = x ∨ y ∈ hs)) := by
  intro hs
  induction hs with
  | nil =>
    intro i _
    right
    refine ⟨0, by simp [oid_array_lookup_aux], by simp, by simp, by simp⟩
  | cons y ys ih =>
    intro i hp
    have hy : ∀ z ∈ ys, bytesLtP y z := fun z hz =>
      List.rel_of_pairwise_cons hp hz
    have hys := hp.of_cons
    match hc : bytesCmp x y with
    | .lt =>
      right
      have hxy : bytesLtP x y := hc
      refine ⟨0, ?_, ?_, ?_, ?_⟩
      · simp [oid_array_lookup_aux, hc]
      · simp only [List.mem_cons, not_or]
        refine ⟨bytesLtP_ne hxy, fun hmem => ?_⟩
        exact bytesLtP_asymm hxy (hy x hmem)
      · rw [List.insertIdx_zero]
        exact List.Pairwise.cons
          (fun z hz => by
            rcases List.mem_cons.mp hz with rfl | hz
            · exact hxy
            · exact bytesLtP_trans x y z hxy (hy z hz)) hp
      · intro z; rw [List.insertIdx_zero]; simp
    | .eq =>
      left
      have hxy : x = y := (bytesCmp_eq_iff x y).mp hc
      refine ⟨0, ?_, ?_, ?_⟩
      · simp [oid_array_lookup_aux, hc]
      · rw [List.eraseIdx_zero, List.tail_cons]
        rw [List.filter_cons_of_neg (by simp [← hxy])]
        refine (List.filter_eq_self.mpr fun z hz => ?_).symm
        simp only [Bool.not_eq_true', beq_eq_false_iff_ne, ne_eq]
        intro hzx
        rw [hzx] at hz
        exact bytesLtP_irrefl y (hy y (hxy ▸ hz))
      · exact hxy ▸ List.mem_cons_self x ys
    | .gt =>
      have hyx : bytesLtP y x := (bytesCmp_gt_iff x y).mp hc
      rcases ih (i + 1) hys with ⟨n, he, her, hm⟩ | ⟨n, he, hnm, hsort, hmem⟩
      · left
        refine ⟨n + 1, ?_, ?_, List.mem_cons_of_mem y hm⟩
        · simp only [oid_array_lookup_aux, hc, he]
          push_cast; ring
        · rw [List.eraseIdx_cons_succ,
            List.filter_cons_of_pos (by simp [bytesLtP_ne hyx]), her]
      · right
        refine ⟨n + 1, ?_, ?_, ?_, ?_⟩
        · simp only [oid_array_lookup_aux, hc, he]
          push_cast; ring
        · simp only [List.mem_cons, not_or]
          exact ⟨fun h => (bytesLtP_ne hyx) h.symm, hnm⟩
        · rw [List.insertIdx_succ_cons]
          refine List.Pairwise.cons (fun z hz => ?_) hsort
          rcases (hmem z).mp hz with rfl | hz
          · exact hyx
          · exact hy z hz
        · intro z
          rw [List.insertIdx_succ_cons]
          simp only [List.mem_cons, hmem z]
          tauto

lemma lookup_remove_eq_filter (p : GitOid) (hs : List GitOid)
    (h : List.Pairwise bytesLtP hs) :
    (if 0 ≤ oid_array_lookup hs p then hs.eraseIdx (oid_array_lookup hs p).toNat
     else hs) = hs.filter (fun e => !(e == p)) := by
  rcases oid_lookup_aux_spec p hs 0 h with ⟨n, he, her, _⟩ | ⟨n, he, hnm, _, _⟩
  · unfold oid_array_lookup
    rw [he]
    rw [if_pos (by positivity)]
    simpa using her
  · unfold oid_array_lookup
    rw [he]
    rw [if_neg (by omega)]
    refine (List.filter_eq_self.mpr fun z hz => ?_).symm
    simp only [Bool.not_eq_eq_eq_not, Bool.not_true, beq_eq_false_iff_ne, ne_eq]
    intro hzp
    subst hzp
    exact hnm hz

lemma remove_parents_fold (ps : List GitOid) :
    ∀ hs : List GitOid, List.Pairwise bytesLtP hs →
      List.Pairwise bytesLtP (ps.foldl (fun hs p =>
          let pos := oid_array_lookup hs p
          if 0 ≤ pos then hs.eraseIdx pos.toNat else hs) hs) ∧
      (∀ p ∈ ps, p ∉ ps.foldl (fun hs p =>
          let pos := oid_array_lookup hs p
          if 0 ≤ pos then hs.eraseIdx pos.toNat else hs) hs) ∧
      (∀ y ∈ ps.foldl (fun hs p =>
          let pos := oid_array_lookup hs p
          if 0 ≤ pos then hs.eraseIdx pos.toNat else hs) hs, y ∈ hs) := by
  induction ps with
  | nil => intro hs h; exact ⟨h, by simp, fun y hy => hy⟩
  | cons p ps ih =>
    intro hs h
    rw [List.foldl_cons]
    have hstep : (let pos := oid_array_lookup hs p
        if 0 ≤ pos then hs.eraseIdx pos.toNat else hs) =
        hs.filter (fun e => !(e == p)) := lookup_remove_eq_filter p hs h
    rw [hstep]
    obtain ⟨h1, h2, h3⟩ := ih (hs.filter (fun e => !(e == p))) (h.filter _)
    refine ⟨h1, ?_, fun y hy => List.mem_of_mem_filter (h3 y hy)⟩
    intro q hq
    rcases List.mem_cons.mp hq with rfl | hq
    · intro hmem
      have := h3 q hmem
      simp at this
    · exact h2 q hq

/-- C6 (counterexample): `ensure_heads` appends the tip commit's parents in
commit order, so a tip whose parents are listed as `[[2]], [[1]]` leaves
the heads array `[[2], [1]]`, which is not strictly ascending — the claim
that the array is strictly ascending after *every* operation fails at the
initialization operation. -/
theorem ensure_heads_unsorted_parents_counterexample :
    ensure_heads (fun _ => none) (some ⟨[[2], [1]], strBytes "tree x\n\nm"⟩)
      true ⟨false, []⟩ = some ⟨true, [[2], [1]]⟩ ∧
    ¬ strictlyAscending [[2], [1]] := by
  refine ⟨by decide, by decide⟩

lemma add_head_core_eq (commits : GitOid → Option Commit)
    (heads : List GitOid) (oid : GitOid) (c : Commit)
    (hc : commits oid = some c) :
    add_head_core commits heads oid =
      (if 0 ≤ oid_array_lookup (c.parents.foldl (fun hs p =>
            let pos := oid_array_lookup hs p
            if 0 ≤ pos then hs.eraseIdx pos.toNat else hs) heads) oid
       then some (c.parents.foldl (fun hs p =>
            let pos := oid_array_lookup hs p
            if 0 ≤ pos then hs.eraseIdx pos.toNat else hs) heads)
       else some ((c.parents.foldl (fun hs p =>
            let pos := oid_array_lookup hs p
            if 0 ≤ pos then hs.eraseIdx pos.toNat else hs) heads).insertIdx
          (-(oid_array_lookup (c.parents.foldl (fun hs p =>
            let pos := oid_array_lookup hs p
            if 0 ≤ pos then hs.eraseIdx pos.toNat else hs) heads) oid) - 1).toNat
          oid)) := by
  unfold add_head_core
  rw [hc]

/-- C6 (amended): `add_head` on a strictly ascending heads array keeps it
strictly ascending, inserts the new oid, and removes every parent of its
commit (for a commit that is not its own parent); `ensure_heads`
initialization yields a strictly ascending array provided the tip commit
lists its parents in strictly ascending order (the order the metadata
writer uses). -/
theorem heads_set_add_head_invariants :
    (∀ (commits : GitOid → Option Commit) (heads : List GitOid) (oid : GitOid)
       (c : Commit), strictlyAscending heads → commits oid = some c →
       oid ∉ c.parents →
       ∃ heads', add_head_core commits heads oid = some heads' ∧
         strictlyAscending heads' ∧ oid ∈ heads' ∧
         ∀ p ∈ c.parents, p ∉ heads') ∧
    (∀ (commits : GitOid → Option Commit) (c : Commit) (isManifest : Bool),
       strictlyAscending c.parents →
       ∃ heads, ensure_heads commits (some c) isManifest ⟨false, []⟩ =
           some ⟨true, heads⟩ ∧ strictlyAscending heads) := by
  constructor
  · intro commits heads oid c hsort hc hself
    rw [add_head_core_eq commits heads oid c hc]
    obtain ⟨h1, h2, h3⟩ := remove_parents_fold c.parents heads hsort
    set removed := c.parents.foldl (fun hs p =>
      let pos := oid_array_lookup hs p
      if 0 ≤ pos then hs.eraseIdx pos.toNat else hs) heads with hrem
    rcases oid_lookup_aux_spec oid removed 0 h1 with
      ⟨n, he, _, hm⟩ | ⟨n, he, hnm, hsort', hmem⟩
    · refine ⟨removed, ?_, h1, hm, h2⟩
      simp only [oid_array_lookup]
      rw [he, if_pos (by positivity)]
    · refine ⟨removed.insertIdx n oid, ?_, hsort', (hmem oid).mpr (Or.inl rfl), ?_⟩
      · simp only [oid_array_lookup]
        rw [he, if_neg (by omega)]
        congr 2
        omega
      · intro p hp hmem'
        rcases (hmem p).mp hmem' with rfl | hmem'
        · exact hself hp
        · exact h2 p hp hmem'
  · intro commits c isManifest hsort
    have hnd : c.parents.Nodup := strictlyAscending_nodup hsort
    rw [ensure_heads_init_eq commits c isManifest hnd]
    refine ⟨_, rfl, ?_⟩
    cases h : isManifest && (commitBody c.msg == flatManifestSentinel) with
    | false => simpa [h] using hsort
    | true =>
      simp only [h, if_pos rfl]
      exact List.Pairwise.sublist (List.drop_sublist 1 c.parents) hsort

/-- C6 (witness): the amended `add_head` invariants at a concrete sorted
heads array `[[1], [3]]`, a new oid `[5]` whose commit has parent `[1]`. -/
theorem heads_set_add_head_invariants_witness :
    ∃ heads', add_head_core
        (fun g => if g = [5] then some ⟨[[1]], []⟩ else none)
        [[1], [3]] [5] = some heads' ∧
      strictlyAscending heads' ∧ [5] ∈ heads' ∧
      ∀ p ∈ ([[1]] : List GitOid), p ∉ heads' :=
  heads_set_add_head_invariants.1
    (fun g => if g = [5] then some ⟨[[1]], []⟩ else none)
    [[1], [3]] [5] ⟨[[1]], []⟩ (by decide) (by decide) (by decide)

/-! ## C10 and C1: git2hg note validation and conflict resolution -/

lemma listStartsWith_append (p r : List Nat) :
    listStartsWith p (p ++ r) = true := by
  induction p with
  | nil => rfl
  | cons a as ih => simp [listStartsWith, ih]

lemma hexVal_hexChar {n : Nat} (h : n < 16) : hexVal (hexChar n) = some n := by
  unfold hexVal hexChar
  by_cases h10 : n < 10
  · rw [if_pos h10, if_pos (by omega)]
    congr 1
    omega
  · rw [if_neg h10, if_neg (by omega), if_pos (by omega)]
    congr 1
    omega

lemma hexDecode_hexEncode : ∀ l : List Nat, (∀ b ∈ l, b < 256) →
    hexDecode (hexEncode l) = some l := by
  intro l
  induction l with
  | nil => intro _; rfl
  | cons b bs ih =>
    intro h
    have hb : b < 256 := h b (by simp)
    simp only [hexEncode, hexDecode]
    rw [hexVal_hexChar (by omega), hexVal_hexChar (by omega),
      ih (fun x hx => h x (by simp [hx]))]
    simp only
    congr 2
    omega

lemma hexEncode_length : ∀ l : List Nat, (hexEncode l).length = 2 * l.length := by
  intro l
  induction l with
  | nil => rfl
  | cons b bs ih => simp [hexEncode, ih]; ring

lemma parseGit2hgNote_wellformed (h : HgOid) (rest : List Nat)
    (hlen : h.length = 20) (hbytes : ∀ b ∈ h, b < 256) :
    parseGit2hgNote (strBytes "changeset " ++ hexEncode h ++ 10 :: rest) =
      some h := by
  unfold parseGit2hgNote
  have henc : (hexEncode h).length = 40 := by
    rw [hexEncode_length, hlen]
  have hs : (strBytes "changeset ").length = 10 := by decide
  rw [if_neg (by simp [hs, henc]; omega)]
  rw [if_neg (by
    simp only [Bool.not_eq_true, Bool.not_eq_false]
    rw [List.append_assoc]
    exact listStartsWith_append _ _)]
  rw [show (strBytes "changeset " ++ hexEncode h ++ 10 :: rest).drop 10 =
      hexEncode h ++ 10 :: rest by
    rw [List.append_assoc, List.drop_append_of_le_length (by rw [hs])]
    rw [show List.drop 10 (strBytes "changeset ") = ([] : List Nat) from by decide]
    simp]
  rw [List.take_append_of_le_length (by rw [henc]), ← henc, List.take_length]
  exact hexDecode_hexEncode h hbytes

/-- C10: the note blob consulted for a colliding oid is rejected (fatal
`Invalid git2hg note`) exactly when its length is below 50 bytes, it does
not start with `"changeset "`, or the 40 characters after that prefix are
not hex; when every `git2hg` value begins `"changeset <40-hex>\n"` the
error branch is unreachable. -/
theorem git2hg_note_validation :
    (∀ content : List Nat,
       parseGit2hgNote content = none ↔
         (content.length < 50 ∨
          listStartsWith (strBytes "changeset ") content = false ∨
          hexDecode ((content.drop 10).take 40) = none)) ∧
    (∀ (git2hg : GitOid → Option GitOid) (readObj : GitOid → Option (List Nat))
       (hashCommit : List Nat → GitOid) (hg_id : HgOid) (fuel : Nat)
       (g note : GitOid) (content : List Nat),
       git2hg g = some note → readObj note = some content →
       parseGit2hgNote content = none →
       handle_changeset_conflict git2hg readObj hashCommit hg_id fuel g none =
         .invalidNote) ∧
    (∀ (git2hg : GitOid → Option GitOid) (readObj : GitOid → Option (List Nat))
       (hashCommit : List Nat → GitOid) (hg_id : HgOid),
       (∀ g note, git2hg g = some note →
         ∃ h rest, readObj note =
             some (strBytes "changeset " ++ hexEncode h ++ 10 :: rest) ∧
           h.length = 20 ∧ ∀ b ∈ h, b < 256) →
       ∀ (fuel : Nat) (g : GitOid) (buf : Option (List Nat)),
         handle_changeset_conflict git2hg readObj hashCommit hg_id fuel g buf ≠
           .invalidNote) := by
  refine ⟨?_, ?_, ?_⟩
  · intro content
    unfold parseGit2hgNote
    by_cases h1 : content.length < 50
    · simp [h1]
    · rw [if_neg h1]
      by_cases h2 : listStartsWith (strBytes "changeset ") content
      · rw [if_neg (by simp [h2])]
        simp [h1, h2]
      · rw [if_pos (by simpa using h2)]
        simp [h1, h2]
  · intro git2hg readObj hashCommit hg_id fuel g note content hg hr hp
    cases fuel
    · rw [handle_changeset_conflict, hg]
      simp only [hr]
      rw [hp]
    · rw [handle_changeset_conflict, hg]
      simp only [hr]
      rw [hp]
  · intro git2hg readObj hashCommit hg_id hvalid fuel
    induction fuel with
    | zero =>
      intro g buf
      rw [handle_changeset_conflict]
      cases hg : git2hg g with
      | none => simp
      | some note =>
        obtain ⟨h, rest, hr, hlen, hbytes⟩ := hvalid g note hg
        simp only [hg, hr]
        rw [parseGit2hgNote_wellformed h rest hlen hbytes]
        by_cases he : h = hg_id <;> simp [he]
    | succ fuel ih =>
      intro g buf
      cases buf with
      | some b =>
        rw [handle_changeset_conflict]
        cases hg : git2hg g with
        | none => simp
        | some note =>
          obtain ⟨h, rest, hr, hlen, hbytes⟩ := hvalid g note hg
          simp only [hg, hr]
          rw [parseGit2hgNote_wellformed h rest hlen hbytes]
          by_cases he : h = hg_id
          · simp [he]
          · dsimp only
            rw [if_neg he]
            exact ih _ _
      | none =>
        rw [handle_changeset_conflict]
        cases hg : git2hg g with
        | none => simp
        | some note =>
          obtain ⟨h, rest, hr, hlen, hbytes⟩ := hvalid g note hg
          simp only [hg, hr]
          rw [parseGit2hgNote_wellformed h rest hlen hbytes]
          by_cases he : h = hg_id
          · simp [he]
          · dsimp only
            rw [if_neg he]
            cases hro : readObj g with
            | none => simp
            | some b =>
              simp only
              exact ih _ _

/-- C10 (witness): with an empty `git2hg`, the precondition holds vacuously
and the resolution loop never dies with `Invalid git2hg note`. -/
theorem git2hg_note_validation_witness :
    handle_changeset_conflict (fun _ => none) (fun _ => none) (fun _ => [7])
      [1] 5 [2] none ≠ .invalidNote :=
  git2hg_note_validation.2.2 (fun _ => none) (fun _ => none) (fun _ => [7]) [1]
    (fun _ _ h => absurd h (by simp)) 5 [2] none

lemma hcc_ok_post (git2hg : GitOid → Option GitOid)
    (readObj : GitOid → Option (List Nat)) (hashCommit : List Nat → GitOid)
    (hg_id : HgOid) :
    ∀ (fuel : Nat) (g : GitOid) (buf : Option (List Nat)) (g' : GitOid),
      handle_changeset_conflict git2hg readObj hashCommit hg_id fuel g buf =
        .ok g' →
      git2hg g' = none ∨ ∃ note content, git2hg g' = some note ∧
        readObj note = some content ∧ parseGit2hgNote content = some hg_id := by
  intro fuel
  induction fuel with
  | zero =>
    intro g buf g' hres
    rw [handle_changeset_conflict] at hres
    cases hg : git2hg g with
    | none =>
      rw [hg] at hres
      dsimp only at hres
      injection hres with hres'
      subst hres'
      exact Or.inl hg
    | some note =>
      rw [hg] at hres
      dsimp only at hres
      cases hr : readObj note with
      | none => rw [hr] at hres; dsimp only at hres; cases hres
      | some content =>
        rw [hr] at hres
        dsimp only at hres
        cases hp : parseGit2hgNote content with
        | none => rw [hp] at hres; dsimp only at hres; cases hres
        | some oid =>
          rw [hp] at hres
          dsimp only at hres
          by_cases heq : oid = hg_id
          · rw [if_pos heq] at hres
            injection hres with hres'
            subst hres'
            subst heq
            exact Or.inr ⟨note, content, hg, hr, hp⟩
          · rw [if_neg heq] at hres
            cases hres
  | succ fuel ih =>
    intro g buf g' hres
    cases buf with
    | some b =>
      rw [handle_changeset_conflict] at hres
      cases hg : git2hg g with
      | none =>
        rw [hg] at hres
        dsimp only at hres
        injection hres with hres'
        subst hres'
        exact Or.inl hg
      | some note =>
        rw [hg] at hres
        dsimp only at hres
        cases hr : readObj note with
        | none => rw [hr] at hres; dsimp only at hres; cases hres
        | some content =>
          rw [hr] at hres
          dsimp only at hres
          cases hp : parseGit2hgNote content with
          | none => rw [hp] at hres; dsimp only at hres; cases hres
          | some oid =>
            rw [hp] at hres
            dsimp only at hres
            by_cases heq : oid = hg_id
            · rw [if_pos heq] at hres
              injection hres with hres'
              subst hres'
              subst heq
              exact Or.inr ⟨note, content, hg, hr, hp⟩
            · rw [if_neg heq] at hres
              exact ih _ _ _ hres
    | none =>
      rw [handle_changeset_conflict] at hres
      cases hg : git2hg g with
      | none =>
        rw [hg] at hres
        dsimp only at hres
        injection hres with hres'
        subst hres'
        exact Or.inl hg
      | some note =>
        rw [hg] at hres
        dsimp only at hres
        cases hr : readObj note with
        | none => rw [hr] at hres; dsimp only at hres; cases hres
        | some content =>
          rw [hr] at hres
          dsimp only at hres
          cases hp : parseGit2hgNote content with
          | none => rw [hp] at hres; dsimp only at hres; cases hres
          | some oid =>
            rw [hp] at hres
            dsimp only at hres
            by_cases heq : oid = hg_id
            · rw [if_pos heq] at hres
              injection hres with hres'
              subst hres'
              subst heq
              exact Or.inr ⟨note, content, hg, hr, hp⟩
            · rw [if_neg heq] at hres
              cases hro : readObj g with
              | none => rw [hro] at hres; dsimp only at hres; cases hres
              | some b =>
                rw [hro] at hres
                dsimp only at hres
                exact ih _ _ _ hres

/-- C1: when the conflict-resolution loop terminates with oid `g'`, either
`g'` has no `git2hg` note or its note names this very changeset; as a
consequence, under the back-pointer invariant (every `hg2git` image has a
`git2hg` note naming its preimage), recording `hg_id → g'` preserves the
injectivity of `hg2git`. -/
theorem hg2git_conflict_resolution_injective
    (git2hg : GitOid → Option GitOid) (readObj : GitOid → Option (List Nat))
    (hashCommit : List Nat → GitOid) (hg2git : HgOid → Option GitOid)
    (hg_id : HgOid) (fuel : Nat) (g g' : GitOid)
    (hres : handle_changeset_conflict git2hg readObj hashCommit hg_id fuel g
      none = .ok g')
    (hinj : notesInjective hg2git)
    (hcons : git2hgConsistent hg2git git2hg readObj) :
    (git2hg g' = none ∨ ∃ note content, git2hg g' = some note ∧
       readObj note = some content ∧ parseGit2hgNote content = some hg_id) ∧
    notesInjective (fun h => if h = hg_id then some g' else hg2git h) := by
  have hpost := hcc_ok_post git2hg readObj hashCommit hg_id fuel g none g' hres
  refine ⟨hpost, ?_⟩
  intro h₁ h₂ g₀ e₁ e₂
  simp only at e₁ e₂
  have contra : ∀ h : HgOid, ¬ h = hg_id → ¬ hg2git h = some g' := by
    intro h hne hgh
    rcases hpost with hnone | ⟨note, content, hn, hcread, hpid⟩
    · obtain ⟨note', c', hn', _, _⟩ := hcons h g' hgh
      rw [hnone] at hn'
      cases hn'
    · obtain ⟨note', c', hn', hr', hp'⟩ := hcons h g' hgh
      rw [hn] at hn'
      injection hn' with hne'
      subst hne'
      rw [hcread] at hr'
      injection hr' with hce
      subst hce
      rw [hpid] at hp'
      injection hp' with hpe
      exact hne hpe.symm
  by_cases h1 : h₁ = hg_id <;> by_cases h2 : h₂ = hg_id
  · rw [h1, h2]
  · rw [if_pos h1] at e₁
    rw [if_neg h2] at e₂
    injection e₁ with e₁'
    subst e₁'
    exact absurd e₂ (contra h₂ h2)
  · rw [if_neg h1] at e₁
    rw [if_pos h2] at e₂
    injection e₂ with e₂'
    subst e₂'
    exact absurd e₁ (contra h₁ h1)
  · rw [if_neg h1] at e₁
    rw [if_neg h2] at e₂
    exact hinj h₁ h₂ g₀ e₁ e₂

/-- C1 (witness): resolving against an empty `git2hg` returns the original
oid at once, and the extended `hg2git` is injective. -/
theorem hg2git_conflict_resolution_injective_witness :
    notesInjective (fun h => if h = [1] then some [2]
      else (fun _ => (none : Option GitOid)) h) := by
  have hres : handle_changeset_conflict (fun _ => none) (fun _ => none)
      (fun _ => [7]) [1] 0 [2] none = .ok [2] := by
    rw [handle_changeset_conflict]
  exact (hg2git_conflict_resolution_injective (fun _ => none) (fun _ => none)
    (fun _ => [7]) (fun _ => none) [1] 0 [2] [2] hres
    (fun _ _ _ e₁ _ => absurd e₁ (by simp))
    (fun _ _ e => absurd e (by simp))).2

/-! ## C2: the two-pass manifest application and scenario S4 -/

/-- C2 (counterexample): the chunk of scenario S4 exactly as claimed —
diffs `(start 0, end 48, data "a\0<40hex A>\n")` then `(start 0, end 48,
"")` against the previous manifest `a\0<40hex A>\n` — is rejected as a
malformed manifest chunk by both strategies (the second diff's start `0`
is below the first diff's end `48`), so the final tree claimed (`_a`
pointing at `A`) is never produced. -/
theorem manifest_two_pass_s4_as_stated_rejected :
    old_store_manifest_core prevS4 treeS4 [⟨0, 48, prevS4⟩, ⟨0, 48, []⟩] =
      .error () ∧
    new_store_manifest_core treeS4 [⟨0, 48, prevS4⟩, ⟨0, 48, []⟩] =
      .error () := ⟨rfl, rfl⟩

/-- C2 (amended): additions are applied in a second pass over the diffs,
only after the removed slices of all diffs have been processed; the valid
form of scenario S4 — an insertion diff `(start 0, end 0, data
"a\0<40hex A>\n")` followed by a removal diff `(start 0, end 43, "")` of
the whole 43-byte previous manifest line — yields exactly the entry `_a`
pointing at `A` under both strategies (a single-pass application would
leave the tree empty, since the later diff removes what the earlier diff
added). -/
theorem manifest_two_pass_s4_amended :
    old_store_manifest_core prevS4 treeS4 [⟨0, 0, prevS4⟩, ⟨0, 43, []⟩] =
      .ok (prevS4, treeS4) ∧
    new_store_manifest_core treeS4 [⟨0, 0, prevS4⟩, ⟨0, 43, []⟩] =
      .ok treeS4 ∧
    treeS4 = [⟨95 :: [97], oidA, 0o160644⟩] := ⟨rfl, rfl, rfl⟩

/-! ## C3: equivalence of the two manifest strategies -/

lemma hexChar_ne_ten (n : Nat) : hexChar n ≠ 10 := by
  unfold hexChar
  split <;> omega

lemma hexEncode_mem_ne_ten : ∀ l : List Nat, ∀ b ∈ hexEncode l, b ≠ 10 := by
  intro l
  induction l with
  | nil => simp [hexEncode]
  | cons x xs ih =>
    intro b hb
    simp only [hexEncode, List.mem_cons] at hb
    rcases hb with rfl | rfl | hb
    · exact hexChar_ne_ten _
    · exact hexChar_ne_ten _
    · exact ih b hb

lemma renderLines_nil : renderLines [] = [] := rfl

lemma renderLines_cons (l : ManifestLine) (ls : List ManifestLine) :
    renderLines (l :: ls) = renderLine l ++ renderLines ls := by
  simp [renderLines]

lemma renderLines_append (a b : List ManifestLine) :
    renderLines (a ++ b) = renderLines a ++ renderLines b := by
  simp [renderLines]

lemma renderLine_split (l : ManifestLine) :
    renderLine l = (l.lpath ++ 0 ::
      (hexEncode l.loid ++ (if l.lattr = 0 then [] else [l.lattr]))) ++ [10] := by
  simp [renderLine]

lemma renderLine_pos (l : ManifestLine) : 0 < (renderLine l).length := by
  rw [renderLine_split]
  simp

lemma renderLine_body_ne_ten (l : ManifestLine) (hw : wfLine l) :
    ∀ b ∈ l.lpath ++ 0 ::
      (hexEncode l.loid ++ (if l.lattr = 0 then [] else [l.lattr])), b ≠ 10 := by
  obtain ⟨_, hpath, _, _, hattr⟩ := hw
  intro b hb
  simp only [List.mem_append, List.mem_cons] at hb
  rcases hb with hb | rfl | hb | hb
  · exact (hpath b hb).2
  · omega
  · exact hexEncode_mem_ne_ten _ b hb
  · rcases hattr with h0 | hx | hl
    · rw [h0] at hb; simp at hb
    · rw [hx] at hb; simp at hb; omega
    · rw [hl] at hb; simp at hb; omega

lemma renderLines_concat_ten : ∀ ls : List ManifestLine, ls ≠ [] →
    ∃ A : List Nat, renderLines ls = A ++ [10] := by
  intro ls
  induction ls with
  | nil => intro h; exact absurd rfl h
  | cons l ls ih =>
    intro _
    cases ls with
    | nil => exact ⟨_, by rw [renderLines_cons, renderLines_nil,
        List.append_nil, renderLine_split]⟩
    | cons l' ls' =>
      obtain ⟨A, hA⟩ := ih (by simp)
      exact ⟨renderLine l ++ A, by rw [renderLines_cons, hA, List.append_assoc]⟩

lemma renderLines_last_ten (ls : List ManifestLine) (h : ls ≠ [])
    (rest : List Nat) :
    (renderLines ls ++ rest).getD ((renderLines ls).length - 1) 0 = 10 := by
  obtain ⟨A, hA⟩ := renderLines_concat_ten ls h
  rw [hA]
  rw [List.append_assoc, List.cons_append]
  simp only [List.length_append, List.length_cons, List.length_nil]
  have : A.length + 1 - 1 = A.length := by omega
  rw [this]
  rw [List.getD_eq_getElem?_getD, List.getElem?_append_right (le_refl _)]
  simp

lemma renderLines_length_ge (ls : List ManifestLine) :
    ls.length ≤ (renderLines ls).length := by
  induction ls with
  | nil => simp [renderLines_nil]
  | cons l ls ih =>
    rw [renderLines_cons]
    simp only [List.length_cons, List.length_append]
    have := renderLine_pos l
    omega

lemma render_ten_boundary : ∀ (togo : List ManifestLine),
    (∀ l ∈ togo, wfLine l) → ∀ m, 0 < m → m ≤ (renderLines togo).length →
    (renderLines togo).getD (m - 1) 0 = 10 →
    ∃ eaten rest2, togo = eaten ++ rest2 ∧ (renderLines eaten).length = m := by
  intro togo
  induction togo with
  | nil =>
    intro _ m hm hle _
    rw [renderLines_nil] at hle
    simp at hle
    omega
  | cons l ls ih =>
    intro hwf m hm hle hbyte
    rw [renderLines_cons] at hle hbyte
    set L := (renderLine l).length with hL
    rcases Nat.lt_trichotomy m L with hcmp | hcmp | hcmp
    · exfalso
      have hbody := renderLine_body_ne_ten l (hwf l (by simp))
      rw [renderLine_split] at hbyte hL
      set body := l.lpath ++ 0 ::
        (hexEncode l.loid ++ (if l.lattr = 0 then [] else [l.lattr])) with hbody'
      have hlb : m - 1 < body.length := by
        simp only [List.length_append, List.length_cons, List.length_nil] at hL
        omega
      rw [List.append_assoc, List.getD_eq_getElem?_getD,
        List.getElem?_append_left hlb] at hbyte
      rw [List.getElem?_eq_getElem hlb] at hbyte
      simp only [Option.getD_some] at hbyte
      have hmem : body[m - 1] ∈ body := List.getElem_mem _
      exact hbody _ hmem hbyte
    · exact ⟨[l], ls, rfl, by rw [renderLines_cons, renderLines_nil,
        List.append_nil, hcmp]⟩
    · have hpos : 0 < L := renderLine_pos l
      have hlen2 : m - L ≤ (renderLines ls).length := by
        simp only [List.length_append] at hle
        omega
      have hbyte2 : (renderLines ls).getD (m - L - 1) 0 = 10 := by
        have hidx : L ≤ m - 1 := by omega
        rw [List.getD_eq_getElem?_getD, List.getElem?_append_right hidx]
          at hbyte
        have : m - 1 - L = m - L - 1 := by omega
        rw [this] at hbyte
        rw [List.getD_eq_getElem?_getD]
        exact hbyte
      obtain ⟨eaten, rest2, heq, hlen⟩ :=
        ih (fun x hx => hwf x (by simp [hx])) (m - L) (by omega) hlen2 hbyte2
      refine ⟨l :: eaten, rest2, by rw [heq]; rfl, ?_⟩
      rw [renderLines_cons]
      simp only [List.length_append]
      omega

lemma mmpAux_length : ∀ p : List Nat,
    (mmpAux p).length = p.length + p.countP (· == 47) := by
  intro p
  induction p with
  | nil => rfl
  | cons c rest ih =>
    simp only [mmpAux]
    by_cases hc : c = 47
    · rw [if_pos hc]
      simp only [List.length_cons, ih, List.countP_cons]
      rw [hc]
      simp
      omega
    · rw [if_neg hc]
      simp only [List.length_cons, ih, List.countP_cons]
      have hb : ((c == 47) : Bool) = false := by simp [hc]
      rw [hb]
      simp
      omega

lemma mmpAux_countP : ∀ p : List Nat,
    (mmpAux p).countP (· == 47) = p.countP (· == 47) := by
  intro p
  induction p with
  | nil => rfl
  | cons c rest ih =>
    simp only [mmpAux]
    by_cases hc : c = 47
    · rw [if_pos hc]
      simp only [List.countP_cons, ih]
      rw [hc]
      simp
    · rw [if_neg hc]
      simp only [List.countP_cons, ih]

lemma renderLine_length (l : ManifestLine) (hw : wfLine l) :
    (renderLine l).length =
      l.lpath.length + 42 + (if l.lattr = 0 then 0 else 1) := by
  obtain ⟨_, _, hlen, _, _⟩ := hw
  simp only [renderLine, List.length_append, List.length_cons,
    hexEncode_length, hlen]
  split <;> simp <;> omega

lemma mirrorLineLen_renderLine (l : ManifestLine) (hw : wfLine l) :
    mirrorLineLen (lineToEntry l) = (renderLine l).length := by
  have hcle := List.countP_le_length (l := l.lpath) (p := (· == 47))
  have hpath : (manifest_metadata_path l.lpath).length -
      (manifest_metadata_path l.lpath).countP (· == 47) = l.lpath.length + 1 := by
    simp only [manifest_metadata_path, List.length_cons, List.countP_cons,
      mmpAux_length, mmpAux_countP]
    have hb : ((95 == 47) : Bool) = false := by decide
    rw [hb]
    simp
    omega
  have m1 : (if Nat.land (modeForAttr 0) 0o777 ≠ 0o644 then 1 else 0) = 0 := by
    decide
  have m2 : (if Nat.land (modeForAttr 120) 0o777 ≠ 0o644 then 1 else 0) = 1 := by
    decide
  have m3 : (if Nat.land (modeForAttr 108) 0o777 ≠ 0o644 then 1 else 0) = 1 := by
    decide
  rw [renderLine_length l hw]
  obtain ⟨_, _, _, _, hattr⟩ := hw
  rcases hattr with h | h | h <;>
    simp only [mirrorLineLen, lineToEntry, hpath, h, m1, m2, m3] <;>
    simp

lemma findIdx_append_first (p : Nat → Bool) :
    ∀ (pre : List Nat) (x : Nat) (t : List Nat),
      (∀ b ∈ pre, ¬ p b) → p x → (pre ++ x :: t).findIdx p = pre.length := by
  intro pre
  induction pre with
  | nil =>
    intro x t _ hx
    simp [List.findIdx_cons, hx]
  | cons a as ih =>
    intro x t hpre hx
    have ha : p a = false := by simpa using hpre a (by simp)
    simp [List.cons_append, List.findIdx_cons, ha,
      ih x t (fun b hb => hpre b (by simp [hb])) hx]

lemma take_append_self : ∀ (a b : List Nat), (a ++ b).take a.length = a := by
  intro a
  induction a with
  | nil => intro b; rfl
  | cons x xs ih => intro b; simp [ih]

lemma drop_append_self : ∀ (a b : List Nat), (a ++ b).drop a.length = b := by
  intro a
  induction a with
  | nil => intro b; rfl
  | cons x xs ih => intro b; simp [ih]

lemma drop_append_cons : ∀ (a : List Nat) (x : Nat) (t : List Nat),
    (a ++ x :: t).drop (a.length + 1) = t := by
  intro a
  induction a with
  | nil => intro x t; rfl
  | cons y ys ih => intro x t; simp only [List.cons_append, List.length_cons,
      List.drop_succ_cons]; exact ih x t

lemma split_render (l : ManifestLine) (hw : wfLine l) (rest : List Nat) :
    split_manifest_line (renderLine l ++ rest) = some (l, (renderLine l).length) := by
  obtain ⟨p, o, a⟩ := l
  obtain ⟨hne, hpath, hlen, hbytes, hattr⟩ := hw
  simp only at hne hpath hlen hbytes hattr
  have hs : renderLine ⟨p, o, a⟩ ++ rest =
      p ++ 0 :: (hexEncode o ++
        ((if a = 0 then [] else [a]) ++ 10 :: rest)) := by
    simp [renderLine]
  have hk : (renderLine ⟨p, o, a⟩ ++ rest).findIdx (· == 0) = p.length := by
    rw [hs]
    exact findIdx_append_first _ _ _ _
      (fun b hb => by simpa using (hpath b hb).1) (by simp)
  have hkne : ¬ p.length = 0 := fun h0 => hne (List.length_eq_zero.mp h0)
  have hlen40 : (hexEncode o).length = 40 := by rw [hexEncode_length, hlen]
  have hdrop : (renderLine ⟨p, o, a⟩ ++ rest).drop (p.length + 1) =
      hexEncode o ++ ((if a = 0 then [] else [a]) ++ 10 :: rest) := by
    rw [hs, drop_append_cons]
  have htake : (renderLine ⟨p, o, a⟩ ++ rest).take p.length = p := by
    rw [hs]
    have := take_append_self p (0 :: (hexEncode o ++
        ((if a = 0 then [] else [a]) ++ 10 :: rest)))
    exact this
  have htk40 : (hexEncode o ++ ((if a = 0 then [] else [a]) ++ 10 :: rest)).take 40
      = hexEncode o := by
    rw [← hlen40, take_append_self]
  have hdr40 : (hexEncode o ++ ((if a = 0 then [] else [a]) ++ 10 :: rest)).drop 40
      = (if a = 0 then [] else [a]) ++ 10 :: rest := by
    rw [← hlen40, drop_append_self]
  unfold split_manifest_line
  rw [hk, if_neg hkne, hdrop, htk40, hdr40, htake,
    hexDecode_hexEncode o hbytes]
  have hrlen : ¬ (hexEncode o ++ ((if a = 0 then [] else [a]) ++ 10 :: rest)).length < 41 := by
    simp only [List.length_append, hlen40, List.length_cons]
    split <;> simp <;> omega
  rw [if_neg hrlen]
  have hrl : (renderLine ⟨p, o, a⟩).length =
      p.length + 42 + (if a = 0 then 0 else 1) :=
    renderLine_length ⟨p, o, a⟩ ⟨hne, hpath, hlen, hbytes, hattr⟩
  rcases hattr with h0 | hx | hl
  · subst h0
    simp only [if_pos rfl, List.nil_append] at hrl ⊢
    simp [hrl]
  · subst hx
    simp only [if_neg (by omega : ¬ (120 : Nat) = 0), List.cons_append,
      List.nil_append] at hrl ⊢
    simp [hrl]
  · subst hl
    simp only [if_neg (by omega : ¬ (108 : Nat) = 0), List.cons_append,
      List.nil_append] at hrl ⊢
    simp [hrl]

lemma parse_fuel_render : ∀ (ls : List ManifestLine) (fuel : Nat),
    (∀ l ∈ ls, wfLine l) → ls.length ≤ fuel →
    parse_manifest_lines_fuel fuel (renderLines ls) = ls := by
  intro ls
  induction ls with
  | nil =>
    intro fuel _ _
    cases fuel with
    | zero => rfl
    | succ f =>
      simp [parse_manifest_lines_fuel, renderLines_nil, split_manifest_line]
  | cons l ls ih =>
    intro fuel hwf hfl
    cases fuel with
    | zero => simp at hfl
    | succ f =>
      rw [renderLines_cons]
      simp only [parse_manifest_lines_fuel]
      rw [split_render l (hwf l (by simp)) (renderLines ls)]
      simp only
      rw [drop_append_self]
      rw [ih f (fun x hx => hwf x (by simp [hx])) (by simp at hfl; omega)]

lemma parse_render (ls : List ManifestLine) (hwf : ∀ l ∈ ls, wfLine l) :
    parse_manifest_lines (renderLines ls) = ls :=
  parse_fuel_render ls _ hwf (renderLines_length_ge ls)

lemma advance_zero (del : Bool) (kept rem : MTree) :
    manifest_tree_advance del kept rem 0 = some (kept, rem) := by
  cases rem <;> rfl

lemma advance_nil (del : Bool) (kept : MTree) (n : Nat) :
    manifest_tree_advance del kept [] (n + 1) = none := rfl

lemma advance_cons (del : Bool) (kept : MTree) (e : MEntry) (rem : MTree)
    (n : Nat) :
    manifest_tree_advance del kept (e :: rem) (n + 1) =
      if n + 1 < mirrorLineLen e then none
      else manifest_tree_advance del (if del then kept else kept ++ [e]) rem
        (n + 1 - mirrorLineLen e) := rfl

lemma advance_render_some (del : Bool) :
    ∀ (eaten rest2 : List ManifestLine) (kept : MTree),
    (∀ l ∈ eaten, wfLine l) →
    manifest_tree_advance del kept ((eaten ++ rest2).map lineToEntry)
        (renderLines eaten).length =
      some ((if del then kept else kept ++ eaten.map lineToEntry),
            rest2.map lineToEntry) := by
  intro eaten
  induction eaten with
  | nil =>
    intro rest2 kept _
    rw [renderLines_nil]
    simp only [List.length_nil, List.nil_append, advance_zero]
    cases del <;> simp
  | cons l es ih =>
    intro rest2 kept hwf
    have hwl := hwf l (by simp)
    have hL : 0 < (renderLine l).length := renderLine_pos l
    rw [renderLines_cons]
    simp only [List.length_append]
    obtain ⟨m, hm⟩ : ∃ m, (renderLine l).length + (renderLines es).length = m + 1 :=
      ⟨(renderLine l).length + (renderLines es).length - 1, by omega⟩
    rw [hm]
    simp only [List.cons_append, List.map_cons, advance_cons]
    rw [mirrorLineLen_renderLine l hwl]
    rw [if_neg (by omega)]
    have hsub : m + 1 - (renderLine l).length = (renderLines es).length := by
      omega
    rw [hsub]
    rw [ih rest2 (if del then kept else kept ++ [lineToEntry l])
      (fun x hx => hwf x (by simp [hx]))]
    cases del with
    | true => simp
    | false => simp [List.append_assoc]

lemma advance_render_none (del : Bool) :
    ∀ (togo : List ManifestLine) (kept : MTree) (n : Nat),
    (∀ l ∈ togo, wfLine l) →
    (∀ eaten rest2, togo = eaten ++ rest2 → (renderLines eaten).length ≠ n) →
    manifest_tree_advance del kept (togo.map lineToEntry) n = none := by
  intro togo
  induction togo with
  | nil =>
    intro kept n _ hno
    have hn : n ≠ 0 := fun h0 =>
      hno [] [] rfl (by rw [renderLines_nil]; simpa using h0.symm)
    obtain ⟨m, hm⟩ : ∃ m, n = m + 1 := ⟨n - 1, by omega⟩
    rw [hm]
    exact advance_nil del kept m
  | cons l ls ih =>
    intro kept n hwf hno
    have hwl := hwf l (by simp)
    have hn : n ≠ 0 := fun h0 =>
      hno [] (l :: ls) rfl (by rw [renderLines_nil]; simpa using h0.symm)
    obtain ⟨m, hm⟩ : ∃ m, n = m + 1 := ⟨n - 1, by omega⟩
    subst hm
    simp only [List.map_cons, advance_cons]
    rw [mirrorLineLen_renderLine l hwl]
    by_cases hlt : m + 1 < (renderLine l).length
    · rw [if_pos hlt]
    · rw [if_neg hlt]
      apply ih _ _ (fun x hx => hwf x (by simp [hx]))
      intro eaten rest2 heq hcnt
      refine hno (l :: eaten) rest2 (by rw [heq]; rfl) ?_
      rw [renderLines_cons]
      simp only [List.length_append]
      omega

lemma tree_content_remove_notin (t : MTree) (g : List Nat)
    (h : ∀ e ∈ t, e.gpath ≠ g) : tree_content_remove t g = t := by
  unfold tree_content_remove
  refine List.filter_eq_self.mpr fun e he => ?_
  simp only [Bool.not_eq_eq_eq_not, Bool.not_true, beq_eq_false_iff_ne, ne_eq]
  exact h e he

lemma fold_remove_middle : ∀ (xs : List ManifestLine) (A B : MTree),
    (∀ l ∈ xs, ∀ e ∈ A ++ B, e.gpath ≠ manifest_metadata_path l.lpath) →
    ((xs.map (fun l => manifest_metadata_path l.lpath)).Nodup) →
    xs.foldl (fun t l => tree_content_remove t (manifest_metadata_path l.lpath))
        (A ++ xs.map lineToEntry ++ B) = A ++ B := by
  intro xs
  induction xs with
  | nil => intro A B _ _; simp
  | cons l ls ih =>
    intro A B hfresh hnd
    rw [List.map_cons] at hnd
    obtain ⟨hni, hnd₂⟩ := List.nodup_cons.mp hnd
    rw [List.foldl_cons]
    have hA : List.filter
        (fun e => !(e.gpath == manifest_metadata_path l.lpath)) A = A :=
      List.filter_eq_self.mpr fun e he => by
        simp only [Bool.not_eq_eq_eq_not, Bool.not_true, beq_eq_false_iff_ne,
          ne_eq]
        exact hfresh l (by simp) e (List.mem_append_left B he)
    have hB : List.filter
        (fun e => !(e.gpath == manifest_metadata_path l.lpath)) B = B :=
      List.filter_eq_self.mpr fun e he => by
        simp only [Bool.not_eq_eq_eq_not, Bool.not_true, beq_eq_false_iff_ne,
          ne_eq]
        exact hfresh l (by simp) e (List.mem_append_right A he)
    have hM : List.filter
        (fun e => !(e.gpath == manifest_metadata_path l.lpath))
        ((l :: ls).map lineToEntry) = ls.map lineToEntry := by
      rw [List.map_cons, List.filter_cons_of_neg (by
        simp [lineToEntry])]
      refine List.filter_eq_self.mpr fun e he => ?_
      simp only [Bool.not_eq_eq_eq_not, Bool.not_true, beq_eq_false_iff_ne,
        ne_eq]
      obtain ⟨l', hl', rfl⟩ := List.mem_map.mp he
      simp only [lineToEntry]
      intro hcontra
      exact hni (List.mem_map.mpr ⟨l', hl', hcontra⟩)
    have hstep : tree_content_remove (A ++ (l :: ls).map lineToEntry ++ B)
        (manifest_metadata_path l.lpath) = A ++ ls.map lineToEntry ++ B := by
      unfold tree_content_remove
      rw [List.filter_append, List.filter_append, hA, hB, hM]
    rw [hstep]
    exact ih A B (fun x hx => hfresh x (by simp [hx])) hnd₂

lemma old_pass1_nil (prev : List Nat) (last_end : Nat) (acc : List Nat)
    (tree : MTree) :
    old_manifest_pass1 prev [] last_end acc tree = .ok (acc, tree, last_end) :=
  rfl

lemma old_pass1_cons (prev : List Nat) (d : RevDiff) (ds : List RevDiff)
    (last_end : Nat) (acc : List Nat) (tree : MTree) :
    old_manifest_pass1 prev (d :: ds) last_end acc tree =
      (if d.dstart > prev.length ∨ d.dstart < last_end ∨ d.dstart > d.dend then
        .error ()
      else
        if d.dstart > 0 ∧ prev.getD (d.dstart - 1) 0 ≠ 10 then .error ()
        else if d.dend > 0 ∧ prev.getD (d.dend - 1) 0 ≠ 10 then .error ()
        else
          old_manifest_pass1 prev ds d.dend
            (acc ++ (prev.drop last_end).take (d.dstart - last_end) ++ d.data)
            ((parse_manifest_lines
                ((prev.drop d.dstart).take (d.dend - d.dstart))).foldl
              (fun t l => tree_content_remove t (manifest_metadata_path l.lpath))
              tree)) := rfl

lemma new_pass1_nil (kept rem : MTree) (last_end : Nat) :
    new_manifest_pass1 [] kept rem last_end = .ok (kept ++ rem) := rfl

lemma new_pass1_cons (d : RevDiff) (ds : List RevDiff) (kept rem : MTree)
    (last_end : Nat) :
    new_manifest_pass1 (d :: ds) kept rem last_end =
      (if d.dstart < last_end ∨ d.dstart > d.dend then .error ()
      else
        match manifest_tree_advance false kept rem (d.dstart - last_end) with
        | none => .error ()
        | some (kept₁, rem₁) =>
          match manifest_tree_advance true kept₁ rem₁ (d.dend - d.dstart) with
          | none => .error ()
          | some (kept₂, rem₂) => new_manifest_pass1 ds kept₂ rem₂ d.dend) := rfl

/-- Joint simulation of the two first passes: over a previous manifest text
that renders a well-formed line list, with the mirror fragments threaded in
lockstep, the text pass and the tree-walk pass either both reject the
remaining diffs or both succeed with the same mirror tree (and the text
pass's final `last_end` stays within the text). -/
lemma pass1_sim (prev : List Nat) :
    ∀ (diffs : List RevDiff) (consumed togo : List ManifestLine)
      (kept : MTree) (acc : List Nat),
      prev = renderLines consumed ++ renderLines togo →
      (∀ l ∈ togo, wfLine l) →
      (((kept ++ togo.map lineToEntry).map MEntry.gpath).Nodup) →
      (old_manifest_pass1 prev diffs (renderLines consumed).length acc
          (kept ++ togo.map lineToEntry) = .error () ∧
        new_manifest_pass1 diffs kept (togo.map lineToEntry)
          (renderLines consumed).length = .error ()) ∨
      (∃ acc' t last_end,
        old_manifest_pass1 prev diffs (renderLines consumed).length acc
            (kept ++ togo.map lineToEntry) = .ok (acc', t, last_end) ∧
        new_manifest_pass1 diffs kept (togo.map lineToEntry)
            (renderLines consumed).length = .ok t ∧
        last_end ≤ prev.length) := by
  intro diffs
  induction diffs with
  | nil =>
    intro consumed togo kept acc hprev hwf hnd
    right
    refine ⟨acc, kept ++ togo.map lineToEntry, (renderLines consumed).length,
      rfl, rfl, ?_⟩
    rw [hprev, List.length_append]
    omega
  | cons d ds ih =>
    intro consumed togo kept acc hprev hwf hnd
    by_cases hbad : d.dstart < (renderLines consumed).length ∨ d.dstart > d.dend
    · left
      have hc1 : d.dstart > prev.length ∨
          d.dstart < (renderLines consumed).length ∨ d.dstart > d.dend := by
        rcases hbad with h | h
        · exact Or.inr (Or.inl h)
        · exact Or.inr (Or.inr h)
      constructor
      · rw [old_pass1_cons, if_pos hc1]
      · rw [new_pass1_cons, if_pos hbad]
    · push_neg at hbad
      obtain ⟨hsL, hse⟩ := hbad
      by_cases hsplit1 : ∃ eaten r₁, togo = eaten ++ r₁ ∧
          (renderLines eaten).length = d.dstart - (renderLines consumed).length
      · obtain ⟨eaten, r₁, hteq, hlen1⟩ := hsplit1
        subst hteq
        have hwfe : ∀ l ∈ eaten, wfLine l :=
          fun l hl => hwf l (List.mem_append_left _ hl)
        have hwfr : ∀ l ∈ r₁, wfLine l :=
          fun l hl => hwf l (List.mem_append_right _ hl)
        have hplen : prev.length = (renderLines consumed).length +
            ((renderLines eaten).length + (renderLines r₁).length) := by
          rw [hprev, renderLines_append, List.length_append, List.length_append]
        have hsle : d.dstart ≤ prev.length := by omega
        have hce : (renderLines (consumed ++ eaten)).length = d.dstart := by
          rw [renderLines_append, List.length_append]
          omega
        have hprev2 : prev = renderLines (consumed ++ eaten) ++ renderLines r₁ := by
          rw [hprev]
          simp only [renderLines_append, List.append_assoc]
        have hnostart : ¬(d.dstart > 0 ∧ prev.getD (d.dstart - 1) 0 ≠ 10) := by
          rintro ⟨hpos, hbyte⟩
          have hne : consumed ++ eaten ≠ [] := by
            intro h0
            rw [h0] at hce
            simp only [renderLines_nil, List.length_nil] at hce
            omega
          have hten := renderLines_last_ten (consumed ++ eaten) hne (renderLines r₁)
          rw [hce] at hten
          rw [hprev2] at hbyte
          exact hbyte hten
        by_cases hsplit2 : ∃ e2 r2, r₁ = e2 ++ r2 ∧
            (renderLines e2).length = d.dend - d.dstart
        · obtain ⟨eaten₂, r₂, hreq, hlen2⟩ := hsplit2
          subst hreq
          have hwf2 : ∀ l ∈ eaten₂, wfLine l :=
            fun l hl => hwfr l (List.mem_append_left _ hl)
          have hwfr2 : ∀ l ∈ r₂, wfLine l :=
            fun l hl => hwfr l (List.mem_append_right _ hl)
          have hplen2 : (renderLines (eaten₂ ++ r₂)).length =
              (renderLines eaten₂).length + (renderLines r₂).length := by
            rw [renderLines_append, List.length_append]
          have hce2 : (renderLines ((consumed ++ eaten) ++ eaten₂)).length = d.dend := by
            rw [renderLines_append, List.length_append, hce]
            omega
          have hprev3 : prev =
              renderLines ((consumed ++ eaten) ++ eaten₂) ++ renderLines r₂ := by
            rw [hprev]
            simp only [renderLines_append, List.append_assoc]
          have hnoend : ¬(d.dend > 0 ∧ prev.getD (d.dend - 1) 0 ≠ 10) := by
            rintro ⟨hpos, hbyte⟩
            have hne : (consumed ++ eaten) ++ eaten₂ ≠ [] := by
              intro h0
              rw [h0] at hce2
              simp only [renderLines_nil, List.length_nil] at hce2
              omega
            have hten := renderLines_last_ten ((consumed ++ eaten) ++ eaten₂) hne
              (renderLines r₂)
            rw [hce2] at hten
            rw [hprev3] at hbyte
            exact hbyte hten
          have hprev2b : prev = renderLines (consumed ++ eaten) ++
              (renderLines eaten₂ ++ renderLines r₂) := by
            rw [hprev]
            simp only [renderLines_append, List.append_assoc]
          have hdrop : prev.drop d.dstart = renderLines eaten₂ ++ renderLines r₂ := by
            rw [hprev2b, ← hce]
            exact drop_append_self _ _
          have hslice : (prev.drop d.dstart).take (d.dend - d.dstart) =
              renderLines eaten₂ := by
            rw [hdrop, ← hlen2]
            exact take_append_self _ _
          have hnd' : (((kept ++ eaten.map lineToEntry).map MEntry.gpath) ++
              ((eaten₂.map lineToEntry).map MEntry.gpath ++
                (r₂.map lineToEntry).map MEntry.gpath)).Nodup := by
            have h := hnd
            simp only [List.map_append, List.append_assoc] at h ⊢
            exact h
          obtain ⟨hndA, hndZB, hdisjA⟩ := List.nodup_append.mp hnd'
          obtain ⟨hndZ, hndB, hdisjZ⟩ := List.nodup_append.mp hndZB
          have hndZ' : (eaten₂.map (fun l => manifest_metadata_path l.lpath)).Nodup := by
            rw [List.map_map] at hndZ
            exact hndZ
          have hfresh : ∀ l ∈ eaten₂,
              ∀ ent ∈ (kept ++ eaten.map lineToEntry) ++ r₂.map lineToEntry,
              MEntry.gpath ent ≠ manifest_metadata_path l.lpath := by
            intro l hl ent hent hcontra
            have hzZ : manifest_metadata_path l.lpath ∈
                (eaten₂.map lineToEntry).map MEntry.gpath :=
              List.mem_map.mpr ⟨lineToEntry l, List.mem_map.mpr ⟨l, hl, rfl⟩, rfl⟩
            rcases List.mem_append.mp hent with hA | hB
            · exact hdisjA (List.mem_map.mpr ⟨ent, hA, hcontra⟩)
                (List.mem_append_left _ hzZ)
            · exact hdisjZ hzZ (List.mem_map.mpr ⟨ent, hB, hcontra⟩)
          have hfold : (parse_manifest_lines
              ((prev.drop d.dstart).take (d.dend - d.dstart))).foldl
              (fun t l => tree_content_remove t (manifest_metadata_path l.lpath))
              (kept ++ (eaten ++ (eaten₂ ++ r₂)).map lineToEntry) =
              (kept ++ eaten.map lineToEntry) ++ r₂.map lineToEntry := by
            rw [hslice, parse_render eaten₂ hwf2]
            have htree : kept ++ (eaten ++ (eaten₂ ++ r₂)).map lineToEntry =
                (kept ++ eaten.map lineToEntry) ++
                  eaten₂.map lineToEntry ++ r₂.map lineToEntry := by
              simp only [List.map_append, List.append_assoc]
            rw [htree]
            exact fold_remove_middle eaten₂ (kept ++ eaten.map lineToEntry)
              (r₂.map lineToEntry) hfresh hndZ'
          have hold : old_manifest_pass1 prev (d :: ds)
              (renderLines consumed).length acc
              (kept ++ (eaten ++ (eaten₂ ++ r₂)).map lineToEntry) =
              old_manifest_pass1 prev ds d.dend
                (acc ++ (prev.drop (renderLines consumed).length).take
                    (d.dstart - (renderLines consumed).length) ++ d.data)
                ((kept ++ eaten.map lineToEntry) ++ r₂.map lineToEntry) := by
            rw [old_pass1_cons, if_neg (by omega), if_neg hnostart,
              if_neg hnoend, hfold]
          have hnew : new_manifest_pass1 (d :: ds) kept
              ((eaten ++ (eaten₂ ++ r₂)).map lineToEntry)
              (renderLines consumed).length =
              new_manifest_pass1 ds (kept ++ eaten.map lineToEntry)
                (r₂.map lineToEntry) d.dend := by
            rw [new_pass1_cons, if_neg (by omega), ← hlen1,
              advance_render_some false eaten (eaten₂ ++ r₂) kept hwfe,
              if_neg Bool.false_ne_true]
            dsimp only
            rw [← hlen2,
              advance_render_some true eaten₂ r₂ (kept ++ eaten.map lineToEntry) hwf2,
              if_pos rfl]
          have hnd'' : (((kept ++ eaten.map lineToEntry) ++
              r₂.map lineToEntry).map MEntry.gpath).Nodup := by
            rw [List.map_append]
            exact List.Nodup.sublist
              ((List.sublist_append_right _ _).append_left _) hnd'
          have hIH := ih ((consumed ++ eaten) ++ eaten₂) r₂
            (kept ++ eaten.map lineToEntry)
            (acc ++ (prev.drop (renderLines consumed).length).take
                (d.dstart - (renderLines consumed).length) ++ d.data)
            hprev3 hwfr2 hnd''
          rw [hce2] at hIH
          rw [hold, hnew]
          exact hIH
        · have hnosplit2 : ∀ e2 r2, r₁ = e2 ++ r2 →
              (renderLines e2).length ≠ d.dend - d.dstart :=
            fun e2 r2 heq hlen => hsplit2 ⟨e2, r2, heq, hlen⟩
          have hene : d.dend ≠ d.dstart := by
            intro h
            exact hnosplit2 [] r₁ rfl
              (by simp only [renderLines_nil, List.length_nil]; omega)
          have hbend : prev.getD (d.dend - 1) 0 ≠ 10 := by
            intro hbyte
            by_cases hep : d.dend ≤ prev.length
            · have hble2 : d.dend - d.dstart ≤ (renderLines r₁).length := by omega
              have hbyte2 : (renderLines r₁).getD (d.dend - d.dstart - 1) 0 = 10 := by
                rw [hprev2] at hbyte
                rw [List.getD_eq_getElem?_getD,
                  List.getElem?_append_right (by rw [hce]; omega)] at hbyte
                rw [hce] at hbyte
                rw [List.getD_eq_getElem?_getD]
                have hidx : d.dend - 1 - d.dstart = d.dend - d.dstart - 1 := by omega
                rw [← hidx]
                exact hbyte
              obtain ⟨e2, r2, heq, hlen⟩ := render_ten_boundary r₁ hwfr
                (d.dend - d.dstart) (by omega) hble2 hbyte2
              exact hnosplit2 e2 r2 heq hlen
            · push_neg at hep
              have hzero : prev.getD (d.dend - 1) 0 = 0 := by
                rw [List.getD_eq_getElem?_getD, List.getElem?_eq_none (by omega)]
                rfl
              omega
          left
          constructor
          · rw [old_pass1_cons, if_neg (by omega), if_neg hnostart,
              if_pos ⟨by omega, hbend⟩]
          · rw [new_pass1_cons, if_neg (by omega), ← hlen1,
              advance_render_some false eaten r₁ kept hwfe,
              if_neg Bool.false_ne_true]
            dsimp only
            rw [advance_render_none true r₁ (kept ++ eaten.map lineToEntry)
              (d.dend - d.dstart) hwfr hnosplit2]
      · have hnosplit : ∀ e2 r2, togo = e2 ++ r2 →
            (renderLines e2).length ≠ d.dstart - (renderLines consumed).length :=
          fun e2 r2 heq hlen => hsplit1 ⟨e2, r2, heq, hlen⟩
        have hne0 : d.dstart ≠ (renderLines consumed).length := by
          intro h
          exact hnosplit [] togo rfl
            (by simp only [renderLines_nil, List.length_nil]; omega)
        have hgt : (renderLines consumed).length < d.dstart := by omega
        left
        constructor
        · by_cases hsp : d.dstart > prev.length
          · rw [old_pass1_cons, if_pos (Or.inl hsp)]
          · push_neg at hsp
            have hlen' : prev.length = (renderLines consumed).length +
                (renderLines togo).length := by
              rw [hprev, List.length_append]
            have hbne : prev.getD (d.dstart - 1) 0 ≠ 10 := by
              intro hbyte
              have hble : d.dstart - (renderLines consumed).length ≤
                  (renderLines togo).length := by omega
              have hbyte2 : (renderLines togo).getD
                  (d.dstart - (renderLines consumed).length - 1) 0 = 10 := by
                rw [hprev] at hbyte
                rw [List.getD_eq_getElem?_getD,
                  List.getElem?_append_right (by omega)] at hbyte
                rw [List.getD_eq_getElem?_getD]
                have hidx : d.dstart - 1 - (renderLines consumed).length =
                    d.dstart - (renderLines consumed).length - 1 := by omega
                rw [← hidx]
                exact hbyte
              obtain ⟨e2, r2, heq, hlen⟩ := render_ten_boundary togo hwf
                (d.dstart - (renderLines consumed).length) (by omega) hble hbyte2
              exact hnosplit e2 r2 heq hlen
            rw [old_pass1_cons, if_neg (by omega), if_pos ⟨by omega, hbne⟩]
        · rw [new_pass1_cons, if_neg (by omega)]
          rw [advance_render_none false togo kept
            (d.dstart - (renderLines consumed).length) hwf hnosplit]

/-- C3: for every previous manifest that renders a well-formed line list
with distinct tree paths, the text-rebuild strategy (`old_store_manifest`)
and the tree-walk strategy (`new_store_manifest`) accept or reject exactly
the same chunks, and on acceptance produce the same mirror tree — hence
the same tree oid and the same commit bytes (so the same commit oid). -/
theorem store_manifest_strategies_equivalent (lines : List ManifestLine)
    (diffs : List RevDiff) (hashTree : MTree → GitOid)
    (parentLines : List Nat) (node : HgOid)
    (hwf : ∀ l ∈ lines, wfLine l)
    (hnd : ((lines.map lineToEntry).map MEntry.gpath).Nodup) :
    (old_store_manifest_core (renderLines lines) (lines.map lineToEntry)
        diffs).map Prod.snd =
      new_store_manifest_core (lines.map lineToEntry) diffs ∧
    (old_store_manifest_core (renderLines lines) (lines.map lineToEntry)
        diffs).map
        (fun r => buildManifestCommit (hashTree r.snd) parentLines node) =
      (new_store_manifest_core (lines.map lineToEntry) diffs).map
        (fun t => buildManifestCommit (hashTree t) parentLines node) := by
  have hsim := pass1_sim (renderLines lines) diffs [] lines [] []
    (by simp [renderLines_nil]) hwf (by simpa using hnd)
  simp only [renderLines_nil, List.length_nil, List.nil_append] at hsim
  have hmain : (old_store_manifest_core (renderLines lines)
      (lines.map lineToEntry) diffs).map Prod.snd =
      new_store_manifest_core (lines.map lineToEntry) diffs := by
    unfold old_store_manifest_core new_store_manifest_core
    rcases hsim with ⟨h1, h2⟩ | ⟨acc', t, le, h1, h2, h3⟩
    · rw [h1, h2]
      rfl
    · rw [h1, h2]
      dsimp only
      cases hA : manifest_additions t diffs with
      | error e => rfl
      | ok t₂ =>
        dsimp only
        rw [if_neg (by omega)]
        rfl
  refine ⟨hmain, ?_⟩
  cases ho : old_store_manifest_core (renderLines lines)
      (lines.map lineToEntry) diffs with
  | error e =>
    have hnewE : new_store_manifest_core (lines.map lineToEntry) diffs =
        .error e := by
      rw [← hmain, ho]
      rfl
    rw [hnewE]
    rfl
  | ok r =>
    have hnewO : new_store_manifest_core (lines.map lineToEntry) diffs =
        .ok r.snd := by
      rw [← hmain, ho]
      rfl
    rw [hnewO]
    rfl

/-- Concrete check of `store_manifest_strategies_equivalent` on the amended
S4 instance: previous manifest the single line `a\0<40hex A>\n`, one diff
adding the same line at offset 0 and one removing the original 43 bytes. -/
theorem store_manifest_strategies_equivalent_witness :
    (∀ l ∈ [lineA], wfLine l) ∧
    ((([lineA].map lineToEntry).map MEntry.gpath).Nodup) ∧
    ((old_store_manifest_core (renderLines [lineA]) ([lineA].map lineToEntry)
        [⟨0, 0, renderLine lineA⟩, ⟨0, 43, []⟩]).map Prod.snd =
      new_store_manifest_core ([lineA].map lineToEntry)
        [⟨0, 0, renderLine lineA⟩, ⟨0, 43, []⟩] ∧
    (old_store_manifest_core (renderLines [lineA]) ([lineA].map lineToEntry)
        [⟨0, 0, renderLine lineA⟩, ⟨0, 43, []⟩]).map
        (fun r => buildManifestCommit ((fun _ => nullOid) r.snd) [] oidA) =
      (new_store_manifest_core ([lineA].map lineToEntry)
        [⟨0, 0, renderLine lineA⟩, ⟨0, 43, []⟩]).map
        (fun t => buildManifestCommit ((fun _ => nullOid) t) [] oidA)) :=
  ⟨by
      intro l hl
      rw [List.mem_singleton] at hl
      subst hl
      unfold wfLine
      decide,
    by decide,
    store_manifest_strategies_equivalent [lineA]
      [⟨0, 0, renderLine lineA⟩, ⟨0, 43, []⟩] (fun _ => nullOid) [] oidA
      (by
        intro l hl
        rw [List.mem_singleton] at hl
        subst hl
        unfold wfLine
        decide)
      (by decide)⟩
